import Mathlib

/-!
# Translator: flattening loader and placeholder resolver

A shallow embedding of `translator.go` (package `translator`): the table
`map[string]map[string]string`, the recursive flattening `parse`, the file
walk (`walk`, `read`, `New`) over an explicit file-system environment, and the
lookup `Translate`.

Modelling choices.

* Go strings are Lean strings; `strings.HasSuffix` and its relatives compare
  characters, which agrees with Go's comparison of bytes on valid UTF-8.
* The table and the argument maps are partial functions on strings.
* A `map[string]any` that `parse` ranges over is the sequence of its entries in
  the order in which `range` visits them (`Data`); Go leaves that order
  unspecified, and `SameMap` relates two orders of the same map.
* A call ends in an `Outcome`: a normal return, a returned error, or a panic.
* The file system and the decoders are an explicit environment `Env`. What
  lies under a root is a tree (`Root`, `Dir`) whose directories may fail to be
  listed and whose entries may fail `lstat`; a file carries what `os.ReadFile`
  returns for it. `Walk` and `walkDir` follow `filepath.Walk` and its helper
  `walk`: the root is reported under the path as given, an entry under
  `filepath.Join` of the path of its directory and its name, and `Join` cleans
  its result (`Clean`). An error returned by the callback is taken to be
  neither `filepath.SkipDir` nor `filepath.SkipAll`, so it ends the walk.
* `replaceArgs`, `createKeyPrefixFromPath` and `ErrorInvalidDir` are declared
  outside `translator.go`: the first is modelled from the specification, the
  second is a field of `Env`, the third is the panic value `invalidDir`.
-/

set_option autoImplicit false

namespace Translator

/-! ## Data model -/

/-- A decoded Go value that is not a `map[string]any`: what `parse` treats as a
leaf. `other` carries the text that `%v` prints for a value of any other
dynamic type (a float, a slice, ...). -/
inductive Atom where
  | str (s : String)
  | int (i : Int)
  | bool (b : Bool)
  | null
  | other (text : String)
  deriving DecidableEq, Repr

/-- The textual form of a leaf: `fmt.Sprintf("%v", item)`. -/
def Atom.text : Atom → String
  | .str s => s
  | .int i => toString i
  | .bool b => if b then "true" else "false"
  | .null => "<nil>"
  | .other t => t

/-- A `map[string]any` as `range` sees it: the entries in visiting order. An
entry whose value is not a map is a `leaf`; an entry whose value is again a
`map[string]any` is a `node` holding that map. -/
inductive Data where
  | nil
  | leaf (dataKey : String) (item : Atom) (rest : Data)
  | node (dataKey : String) (subdata : Data) (rest : Data)
  deriving DecidableEq, Repr

/-- The inner map of the table: dotted key to translated text. -/
abbrev LangMap := String → Option String

/-- The field `translates map[string]map[string]string`. -/
abbrev Table := String → Option LangMap

/-- The table made by `make(map[string]map[string]string)`. -/
def emptyTable : Table := fun _ => none

/-- The inner map made by `make(map[string]string)`. -/
def emptyLangMap : LangMap := fun _ => none

/-- Reading `t.translates[lang][key]` with the two-value form at both levels. -/
def lookup (T : Table) (lang key : String) : Option String :=
  match T lang with
  | none => none
  | some m => m key

/-- What a Go panic carries in this program. -/
inductive PanicValue where
  | invalidDir
  | err (e : String)
  | nilMapWrite
  | nilDeref
  deriving DecidableEq, Repr

/-- How a Go call ends: it returns with a nil error (`done`), it returns a
non-nil error (`failed`), or it panics. -/
inductive Outcome (α : Type) where
  | done (a : α)
  | failed (e : String)
  | panicked (p : PanicValue)

/-! ## Flattening -/

/-- Lines 115-123 of `parse`: the key of an entry under a prefix. With a
non-empty prefix it is `Sprintf("%s.%v", prefix, dataKey)`, else the bare
`dataKey`. -/
def joinKey (pfx dataKey : String) : String :=
  if pfx.length > 0 then pfx ++ "." ++ dataKey else dataKey

/-- The assignment `t.translates[lang][key] = v`: writing into a nil inner map
panics. -/
def store (T : Table) (lang key v : String) : Outcome Table :=
  match T lang with
  | none => .panicked .nilMapWrite
  | some m =>
    .done (fun l => if l = lang then some (fun k => if k = key then some v else m k) else T l)

/-- The method `parse`: the loop over `data`. A leaf is stored and the loop
goes on; at a nested map the function returns the result of the recursive
call, so the entries after it are not visited. -/
def parse (lang : String) : String → Data → Table → Outcome Table
  | _, .nil, T => .done T
  | pfx, .leaf dataKey item rest, T =>
    match store T lang (joinKey pfx dataKey) item.text with
    | .done T' => parse lang pfx rest T'
    | .failed e => .failed e
    | .panicked p => .panicked p
  | pfx, .node dataKey subdata _, T => parse lang (joinKey pfx dataKey) subdata T

/-- The table `walk` hands to `read` for a fresh language: one empty inner map. -/
def freshTable (lang : String) : Table :=
  fun l => if l = lang then some emptyLangMap else none

/-! ## The string helpers of package `strings` -/

/-- The function `strings.HasSuffix`. -/
def HasSuffix (s suffix : String) : Bool :=
  suffix.data.isSuffixOf s.data

/-- The function `strings.HasPrefix`. -/
def HasPrefix (s pre : String) : Bool :=
  pre.data.isPrefixOf s.data

/-- The function `strings.TrimSuffix`: `s` without the trailing `suffix`, or
`s` itself when it does not end with it. -/
def TrimSuffix (s suffix : String) : String :=
  if HasSuffix s suffix then ⟨s.data.take (s.data.length - suffix.data.length)⟩ else s

/-- The function `strings.TrimPrefix`: `s` without the leading `pre`, or `s`
itself when it does not start with it. -/
def TrimPrefix (s pre : String) : String :=
  if HasPrefix s pre then ⟨s.data.drop pre.data.length⟩ else s

/-! ## The path helpers of package `path/filepath` -/

/-- The elements of a path between its slashes. -/
def splitSlash : List Char → List (List Char)
  | [] => [[]]
  | c :: cs =>
    if c = '/' then [] :: splitSlash cs
    else
      match splitSlash cs with
      | [] => [[c]]
      | x :: xs => (c :: x) :: xs

/-- Path elements put together with one slash between two of them. -/
def joinSlash : List (List Char) → List Char
  | [] => []
  | [x] => x
  | x :: y :: rest => x ++ '/' :: joinSlash (y :: rest)

/-- One step of `filepath.Clean` over the elements kept so far: an empty
element and `.` are dropped; `..` removes the element before it, unless that is
`..` too or there is none, in which case `..` is kept on a relative path and
dropped on a rooted one. -/
def cleanStep (rooted : Bool) (kept : List (List Char)) (elem : List Char) :
    List (List Char) :=
  if elem = [] ∨ elem = ['.'] then kept
  else if elem = ['.', '.'] then
    match kept.getLast? with
    | none => if rooted then kept else kept ++ [elem]
    | some top => if top = ['.', '.'] then kept ++ [elem] else kept.dropLast
  else kept ++ [elem]

/-- The library function `filepath.Clean` on slash-separated paths, after its
documented rules; the empty result is `.`. -/
def Clean (path : String) : String :=
  let rooted := path.data.head? = some '/'
  let kept := (splitSlash path.data).foldl (cleanStep rooted) []
  let out := (if rooted then ['/'] else []) ++ joinSlash kept
  if out = [] then "." else ⟨out⟩

/-- The library function `filepath.Join` of two elements: empty elements are
ignored, the others are joined by a slash and the result is cleaned. -/
def Join (a b : String) : String :=
  if a = "" then (if b = "" then "" else Clean b)
  else if b = "" then Clean a
  else Clean (a ++ "/" ++ b)

/-! ## The loader -/

/-- The format constants. -/
def Json : String := "json"
/-- The constant `Yaml`. -/
def Yaml : String := "yaml"
/-- The constant `Toml`. -/
def Toml : String := "toml"

/-- What the callback reads of `fs.FileInfo`. -/
structure FileInfo where
  name : String
  isDir : Bool

/-- One call that `filepath.Walk` makes to the callback: the path, the file
info (`none` is the nil info that comes with a failed `lstat`), and what
`os.ReadFile` returns for that path. -/
structure Visit where
  path : String
  info : Option FileInfo
  content : Except String String

/-- The entries of a directory on disk, in the order of their names, in which
`filepath.Walk` goes through them. A `file` has the result of reading it; a
`dir` has its own entries and, when it cannot be listed, the error of listing
it; `noStat` is an entry whose `lstat` fails. -/
inductive Dir where
  | nil
  | file (name : String) (content : Except String String) (rest : Dir)
  | dir (name : String) (listErr : Option String) (entries : Dir) (rest : Dir)
  | noStat (name : String) (err : String) (rest : Dir)

/-- What `os.Lstat` finds at the root of a walk. -/
inductive Root where
  | file (name : String) (content : Except String String)
  | dir (name : String) (listErr : Option String) (entries : Dir)

/-- The collaborators of the loader, which the program consumes as black
boxes: the file system (`os.Stat` with `os.IsNotExist`, and what lies at a
root), the three decoders, and the helper `createKeyPrefixFromPath`, which is
declared outside `translator.go`. -/
structure Env where
  notExist : String → Bool
  lstat : String → Except String Root
  jsonUnmarshal : String → Except String Data
  tomlUnmarshal : String → Except String Data
  yamlUnmarshal : String → Except String Data
  createKeyPrefixFromPath : String → String

/-- The struct `translator`. -/
structure translator where
  dir : String
  fileType : String
  translates : Table

/-- The decoding `switch` of `read`: the decoder of the file type fills
`fileData`; for any other file type `fileData` stays the empty map. -/
def decode (env : Env) (fileType fileBytes : String) : Except String Data :=
  if fileType = Json then env.jsonUnmarshal fileBytes
  else if fileType = Toml then env.tomlUnmarshal fileBytes
  else if fileType = Yaml then env.yamlUnmarshal fileBytes
  else .ok .nil

/-- The method `read`: read the file, decode it, flatten it. The result of
`os.ReadFile(path)` is the `content` of the visit. -/
def read (env : Env) (fileType lang : String) (content : Except String String)
    (pfx : String) (T : Table) : Outcome Table :=
  match content with
  | .error e => .failed e
  | .ok fileBytes =>
    match decode env fileType fileBytes with
    | .error e => .failed e
    | .ok fileData => parse lang pfx fileData T

/-- Lines 76-79 of `walk`: the directory part of `path` relative to the root,
without its leading and trailing slash. -/
def subpath (tdir path name : String) : String :=
  let dir := TrimPrefix tdir "./"
  let s := TrimPrefix (TrimSuffix path name) dir
  let s := TrimPrefix s "/"
  TrimSuffix s "/"

/-- Lines 73-75 of `walk`: make the inner map of `lang` when there is none. -/
def ensureLang (T : Table) (lang : String) : Table :=
  match T lang with
  | none => fun l => if l = lang then some emptyLangMap else T l
  | some _ => T

/-- The callback that `walk` passes to `filepath.Walk`. It never looks at its
`err` argument; with a nil `info` the call `info.IsDir()` panics. -/
def walkFn (env : Env) (tdir fileType : String) (v : Visit) (T : Table) : Outcome Table :=
  match v.info with
  | none => .panicked .nilDeref
  | some info =>
    if info.isDir then .done T
    else if !HasSuffix info.name ("." ++ fileType) then .done T
    else
      let lang := TrimSuffix info.name ("." ++ fileType)
      read env fileType lang v.content
        (env.createKeyPrefixFromPath (subpath tdir v.path info.name)) (ensureLang T lang)

/-- What `os.ReadFile` returns for a directory. -/
def readDirError : Except String String := .error "is a directory"

/-- The unexported `walk` of `path/filepath` over the entries of the directory
at `path`. A file is handed to the callback. A directory is handed to the
callback together with the error of listing it, and is entered only when it
could be listed. An entry whose `lstat` fails is handed to the callback with a
nil info. An error from the callback ends the walk. -/
def walkDir (fn : Visit → Table → Outcome Table) : String → Dir → Table → Outcome Table
  | _, .nil, T => .done T
  | path, .file name content rest, T =>
    match fn ⟨Join path name, some ⟨name, false⟩, content⟩ T with
    | .done T₁ => walkDir fn path rest T₁
    | .failed e => .failed e
    | .panicked p => .panicked p
  | path, .dir name listErr entries rest, T =>
    match fn ⟨Join path name, some ⟨name, true⟩, readDirError⟩ T with
    | .done T₁ =>
      match listErr with
      | some _ => walkDir fn path rest T₁
      | none =>
        match walkDir fn (Join path name) entries T₁ with
        | .done T₂ => walkDir fn path rest T₂
        | .failed e => .failed e
        | .panicked p => .panicked p
    | .failed e => .failed e
    | .panicked p => .panicked p
  | path, .noStat name err rest, T =>
    match fn ⟨Join path name, none, .error err⟩ T with
    | .done T₁ => walkDir fn path rest T₁
    | .failed e => .failed e
    | .panicked p => .panicked p

/-- The library function `filepath.Walk`: the root is handed to the callback
under the path as given, its entries under joined paths. -/
def Walk (env : Env) (root : String) (fn : Visit → Table → Outcome Table) (T : Table) :
    Outcome Table :=
  match env.lstat root with
  | .error e => fn ⟨root, none, .error e⟩ T
  | .ok (.file name content) => fn ⟨root, some ⟨name, false⟩, content⟩ T
  | .ok (.dir name listErr entries) =>
    match fn ⟨root, some ⟨name, true⟩, readDirError⟩ T with
    | .done T₁ =>
      match listErr with
      | some _ => .done T₁
      | none => walkDir fn root entries T₁
    | .failed e => .failed e
    | .panicked p => .panicked p

/-- The method `walk`. -/
def walk (env : Env) (t : translator) : Outcome Table :=
  Walk env t.dir (walkFn env t.dir t.fileType) t.translates

/-- The constructor `New`: an empty `dir` returns the empty translator at
once; a missing directory panics with `ErrorInvalidDir`; an error of `walk`
panics with that error. -/
def New (env : Env) (dir fileType : String) : Outcome translator :=
  if dir.length = 0 then .done ⟨dir, fileType, emptyTable⟩
  else if env.notExist dir then .panicked .invalidDir
  else
    match walk env ⟨dir, fileType, emptyTable⟩ with
    | .done T => .done ⟨dir, fileType, T⟩
    | .failed e => .panicked (.err e)
    | .panicked p => .panicked p

/-! ## The resolver -/

/-- One argument map `map[string]any`; only the `%v` text of a value is used. -/
abbrev ArgMap := String → Option Atom

/-- Modelled from the spec: the value that the argument maps of `replaceArgs`
supply for a name; a later map takes precedence over an earlier one. -/
def argValue (args : List ArgMap) (name : String) : Option Atom :=
  args.foldl (fun acc m => match m name with | some v => some v | none => acc) none

/-- Modelled from the spec: the scan of `replaceArgs` for `{name}`. The second
argument is `none` outside a placeholder and `some buf` after an opening brace, `buf` being the name read so
far. A closing brace ends the name: a supplied name is replaced by the text of
its value, any other is put back as it was written. -/
def scanArgs (args : List ArgMap) : Option (List Char) → List Char → List Char
  | none, [] => []
  | some buf, [] => '{' :: buf
  | none, c :: cs =>
    if c = '{' then scanArgs args (some []) cs else c :: scanArgs args none cs
  | some buf, c :: cs =>
    if c = '}' then
      match argValue args ⟨buf⟩ with
      | some v => v.text.data ++ scanArgs args none cs
      | none => '{' :: (buf ++ '}' :: scanArgs args none cs)
    else if c = '{' then '{' :: (buf ++ scanArgs args (some []) cs)
    else scanArgs args (some (buf ++ [c])) cs

/-- Modelled from the spec: the function `replaceArgs`, which `Translate` calls
and which is declared outside `translator.go`. It scans the stored string for
`{name}` and replaces each by the textual form of the value that the argument
maps supply for `name`, a later map winning over an earlier one; a placeholder
without a value stays as written. -/
def replaceArgs (translate : String) (args : List ArgMap) : String :=
  ⟨scanArgs args none translate.data⟩

/-- The method `Translate`. -/
def Translate (t : translator) (langCode key : String) (args : List ArgMap) : String :=
  match t.translates langCode with
  | none => key
  | some langTranslates =>
    match langTranslates key with
    | none => key
    | some translate => replaceArgs translate args

/-! ## Specification-side definitions -/

/-- The leaves of a document, each with its chain of nested keys from the top
of the document down to the leaf. -/
def leafPaths : Data → List (List String × Atom)
  | .nil => []
  | .leaf dataKey item rest => ([dataKey], item) :: leafPaths rest
  | .node dataKey subdata rest =>
    (leafPaths subdata).map (fun p => (dataKey :: p.1, p.2)) ++ leafPaths rest

/-- The fully dotted key of the specification: the prefix, when it is not
empty, and the chain of nested keys, joined with `.`. -/
def dottedKey (pfx : String) (chain : List String) : String :=
  ".".intercalate ((if pfx = "" then [] else [pfx]) ++ chain)

/-- Whether the top level of a document holds a nested map under the empty
key. -/
def emptyKeyNode : Data → Bool
  | .nil => false
  | .leaf _ _ rest => emptyKeyNode rest
  | .node dataKey _ rest => dataKey = "" || emptyKeyNode rest

/-- What a call left in the table for a language and key, when it returned
normally. -/
def lookupAfter (o : Outcome Table) (lang key : String) : Option String :=
  match o with
  | .done T => lookup T lang key
  | .failed _ => none
  | .panicked _ => none

/-- A flattening stores `key -> v`: run on the fresh table of the language it
leaves `v` under `key`. -/
def stores (lang pfx : String) (data : Data) (key v : String) : Prop :=
  lookupAfter (parse lang pfx data (freshTable lang)) lang key = some v

instance (lang pfx : String) (data : Data) (key v : String) :
    Decidable (stores lang pfx data key v) := by
  unfold stores; infer_instance

/-- The stores that `parse` performs, in order. -/
def writes : String → Data → List (String × String)
  | _, .nil => []
  | pfx, .leaf dataKey item rest => (joinKey pfx dataKey, item.text) :: writes pfx rest
  | pfx, .node dataKey subdata _ => writes (joinKey pfx dataKey) subdata

/-- An inner map after a sequence of stores. -/
def applyWrites (m : LangMap) : List (String × String) → LangMap
  | [] => m
  | w :: ws => applyWrites (fun k => if k = w.1 then some w.2 else m k) ws

/-- The table with the inner map of one language replaced. -/
def setLang (T : Table) (lang : String) (m : LangMap) : Table :=
  fun l => if l = lang then some m else T l

/-- The key that `parse` reaches by following a chain of nested keys from a
prefix. -/
def foldKey (pfx : String) (chain : List String) : String :=
  chain.foldl joinKey pfx

/-! ## Stored strings as pieces -/

/-- A piece of a stored string: `lit` is text without an opening brace, `hole`
is a placeholder `{name}`, and `stray` is an opening brace with the text behind
it that is not closed before the next opening brace or the end. -/
inductive Piece where
  | lit (text : String)
  | hole (name : String)
  | stray (text : String)
  deriving DecidableEq, Repr

/-- A piece as it is written in the stored string. -/
def Piece.raw : Piece → List Char
  | .lit s => s.data
  | .hole n => '{' :: (n.data ++ ['}'])
  | .stray s => '{' :: s.data

/-- A piece after substitution: a placeholder whose name has a value becomes
the textual form of the value, everything else stays as written. -/
def Piece.subst (args : List ArgMap) : Piece → List Char
  | .lit s => s.data
  | .hole n =>
    match argValue args n with
    | some v => v.text.data
    | none => '{' :: (n.data ++ ['}'])
  | .stray s => '{' :: s.data

/-- The characters of a sequence of pieces as written. -/
def rawChars : List Piece → List Char
  | [] => []
  | p :: ps => p.raw ++ rawChars ps

/-- The characters of a sequence of pieces after substitution. -/
def substChars (args : List ArgMap) : List Piece → List Char
  | [] => []
  | p :: ps => p.subst args ++ substChars args ps

/-- The stored string that a sequence of pieces spells. -/
def rawPieces (ps : List Piece) : String := ⟨rawChars ps⟩

/-- The stored string with every placeholder replaced. -/
def substPieces (args : List ArgMap) (ps : List Piece) : String := ⟨substChars args ps⟩

/-- Whether a sequence of pieces is empty or starts with an opening brace. -/
def startsOpen : List Piece → Bool
  | [] => true
  | .lit _ :: _ => false
  | .hole _ :: _ => true
  | .stray _ :: _ => true

/-- The pieces are what they say: literal text has no opening brace, a name
has no brace, and a stray brace has no brace in its text and is followed by
the end or by another opening brace. -/
def wellFormed : List Piece → Bool
  | [] => true
  | .lit s :: rest => decide ('{' ∉ s.data) && wellFormed rest
  | .hole n :: rest => decide ('{' ∉ n.data) && decide ('}' ∉ n.data) && wellFormed rest
  | .stray s :: rest =>
    decide ('{' ∉ s.data) && decide ('}' ∉ s.data) && startsOpen rest && wellFormed rest

/-- Cutting a string into pieces. The flag says whether an opening brace is
pending, `acc` is the text read since the last cut. -/
def tokenize : Bool → List Char → List Char → List Piece
  | false, acc, [] => [.lit ⟨acc⟩]
  | true, acc, [] => [.stray ⟨acc⟩]
  | false, acc, c :: cs =>
    if c = '{' then .lit ⟨acc⟩ :: tokenize true [] cs else tokenize false (acc ++ [c]) cs
  | true, acc, c :: cs =>
    if c = '}' then .hole ⟨acc⟩ :: tokenize false [] cs
    else if c = '{' then .stray ⟨acc⟩ :: tokenize true [] cs
    else tokenize true (acc ++ [c]) cs

/-- The pieces of a stored string. -/
def piecesOf (S : String) : List Piece := tokenize false [] S.data

/-! ## Walks as sequences of visits -/

/-- A proper name of a file or directory: not empty, without a slash, and
neither `.` nor `..`. -/
def properName (n : String) : Bool :=
  decide (n.data ≠ []) && decide ('/' ∉ n.data) && decide (n.data ≠ ['.'])
    && decide (n.data ≠ ['.', '.'])

/-- The path spelled by a sequence of names, with a leading slash when it is
rooted. -/
def renderPath (rooted : Bool) (names : List String) : String :=
  ⟨(if rooted then ['/'] else []) ++ joinSlash (names.map String.data)⟩

/-- The path under which `filepath.Walk` hands over the file `N` that lies
below the root through the chain of directories `dirs`: every level joins the
path of the directory with the name of the entry. -/
def pathOf (root : String) (dirs : List String) (N : String) : String :=
  Join (dirs.foldl Join root) N

/-- The calls that the walk over the entries of the directory at `path` makes
to a callback that never returns an error. -/
def visits : String → Dir → List Visit
  | _, .nil => []
  | path, .file name content rest =>
    ⟨Join path name, some ⟨name, false⟩, content⟩ :: visits path rest
  | path, .dir name listErr entries rest =>
    ⟨Join path name, some ⟨name, true⟩, readDirError⟩ ::
      ((match listErr with
        | some _ => []
        | none => visits (Join path name) entries) ++ visits path rest)
  | path, .noStat name err rest =>
    ⟨Join path name, none, .error err⟩ :: visits path rest

/-- A callback run over a sequence of visits, up to its first error or panic. -/
def runVisits (fn : Visit → Table → Outcome Table) : List Visit → Table → Outcome Table
  | [], T => .done T
  | v :: vs, T =>
    match fn v T with
    | .done T₁ => runVisits fn vs T₁
    | .failed e => .failed e
    | .panicked p => .panicked p

/-- The file `N` with the given content lies on disk below a directory,
through the chain of directories `dirs`. -/
inductive FileAt : Dir → List String → String → Except String String → Prop where
  | here (N : String) (c : Except String String) (rest : Dir) :
    FileAt (.file N c rest) [] N c
  | down (name : String) (listErr : Option String) {entries : Dir} (rest : Dir)
      {dirs : List String} {N : String} {c : Except String String} :
    FileAt entries dirs N c → FileAt (.dir name listErr entries rest) (name :: dirs) N c
  | afterFile (name : String) (c' : Except String String) {rest : Dir}
      {dirs : List String} {N : String} {c : Except String String} :
    FileAt rest dirs N c → FileAt (.file name c' rest) dirs N c
  | afterDir (name : String) (listErr : Option String) (entries : Dir) {rest : Dir}
      {dirs : List String} {N : String} {c : Except String String} :
    FileAt rest dirs N c → FileAt (.dir name listErr entries rest) dirs N c
  | afterNoStat (name err : String) {rest : Dir}
      {dirs : List String} {N : String} {c : Except String String} :
    FileAt rest dirs N c → FileAt (.noStat name err rest) dirs N c

/-- The file `N` lies below a directory through `dirs`, and every directory
of the chain can be listed. -/
inductive Reaches : Dir → List String → String → Except String String → Prop where
  | here (N : String) (c : Except String String) (rest : Dir) :
    Reaches (.file N c rest) [] N c
  | down (name : String) {entries : Dir} (rest : Dir)
      {dirs : List String} {N : String} {c : Except String String} :
    Reaches entries dirs N c → Reaches (.dir name none entries rest) (name :: dirs) N c
  | afterFile (name : String) (c' : Except String String) {rest : Dir}
      {dirs : List String} {N : String} {c : Except String String} :
    Reaches rest dirs N c → Reaches (.file name c' rest) dirs N c
  | afterDir (name : String) (listErr : Option String) (entries : Dir) {rest : Dir}
      {dirs : List String} {N : String} {c : Except String String} :
    Reaches rest dirs N c → Reaches (.dir name listErr entries rest) dirs N c
  | afterNoStat (name err : String) {rest : Dir}
      {dirs : List String} {N : String} {c : Except String String} :
    Reaches rest dirs N c → Reaches (.noStat name err rest) dirs N c

/-- The property of the characters of a proper name. -/
def ProperChars (x : List Char) : Prop :=
  x ≠ [] ∧ '/' ∉ x ∧ x ≠ ['.'] ∧ x ≠ ['.', '.']

/-- The path `R'/S/N`, or `R'/N` when `S` is empty. -/
def walkedPath (R' S N : String) : String :=
  if S = "" then R' ++ "/" ++ N else R' ++ "/" ++ S ++ "/" ++ N

/-- A decoder for the sample files: the bytes `hello-en` and `hello-fr` decode
to a document, anything else does not decode. -/
def sampleUnmarshal (fileBytes : String) : Except String Data :=
  if fileBytes = "hello-en" then .ok (.leaf "hello" (.str "Hello") .nil)
  else if fileBytes = "hello-fr" then .ok (.leaf "hello" (.str "Bonjour") .nil)
  else .error "unexpected end of JSON input"

/-- An environment in which every root is the given one, nothing is missing,
and `createKeyPrefixFromPath` hands the seed on as it is. -/
def envOf (r : Root) : Env where
  notExist := fun _ => false
  lstat := fun _ => .ok r
  jsonUnmarshal := sampleUnmarshal
  tomlUnmarshal := sampleUnmarshal
  yamlUnmarshal := sampleUnmarshal
  createKeyPrefixFromPath := fun p => p

/-- A root with a good `en.json` and a directory `secret` that cannot be
listed and holds a `fr.json` that does not decode. -/
def secretDir : Dir :=
  .file "en.json" (.ok "hello-en")
    (.dir "secret" (some "permission denied") (.file "fr.json" (.ok "broken") .nil) .nil)

/-- A root with a good `en.json` and an entry whose `lstat` fails. -/
def noStatDir : Dir :=
  .file "en.json" (.ok "hello-en") (.noStat "fr.json" "input/output error" .nil)

/-- A root that holds just a good `en.json`. -/
def plainDir : Dir :=
  .file "en.json" (.ok "hello-en") .nil

/-- A root that holds a good `en.json` in the directory `.hidden`. -/
def hiddenDir : Dir :=
  .dir ".hidden" none (.file "en.json" (.ok "hello-en") .nil) .nil

/-- A root with a good `en.json` and a `fr.json` that does not decode. -/
def brokenDir : Dir :=
  .file "en.json" (.ok "hello-en") (.file "fr.json" (.ok "broken") .nil)

/-- The error of reading or decoding a file, if there is one. -/
def loadError (env : Env) (fileType : String) (content : Except String String) :
    Option String :=
  match content with
  | .error e => some e
  | .ok fileBytes =>
    match decode env fileType fileBytes with
    | .error e => some e
    | .ok _ => none

/-- A visit of a candidate file: not a directory, and the name ends with `.`
and the file type. -/
def candidate (fileType : String) (v : Visit) : Bool :=
  match v.info with
  | none => false
  | some info => !info.isDir && HasSuffix info.name ("." ++ fileType)

/-! ## Visiting orders, sample documents and environments -/

/-- Two entry sequences of the same `map[string]any`: the same entries, at
every level, in a possibly different order. -/
inductive SameMap : Data → Data → Prop where
  | refl (d : Data) : SameMap d d
  | swapLeafLeaf (k₁ : String) (a₁ : Atom) (k₂ : String) (a₂ : Atom) (r : Data) :
    SameMap (.leaf k₁ a₁ (.leaf k₂ a₂ r)) (.leaf k₂ a₂ (.leaf k₁ a₁ r))
  | swapLeafNode (k₁ : String) (a₁ : Atom) (k₂ : String) (s₂ : Data) (r : Data) :
    SameMap (.leaf k₁ a₁ (.node k₂ s₂ r)) (.node k₂ s₂ (.leaf k₁ a₁ r))
  | swapNodeLeaf (k₁ : String) (s₁ : Data) (k₂ : String) (a₂ : Atom) (r : Data) :
    SameMap (.node k₁ s₁ (.leaf k₂ a₂ r)) (.leaf k₂ a₂ (.node k₁ s₁ r))
  | swapNodeNode (k₁ : String) (s₁ : Data) (k₂ : String) (s₂ : Data) (r : Data) :
    SameMap (.node k₁ s₁ (.node k₂ s₂ r)) (.node k₂ s₂ (.node k₁ s₁ r))
  | leaf (k : String) (a : Atom) {r r' : Data} : SameMap r r' →
    SameMap (.leaf k a r) (.leaf k a r')
  | node (k : String) {s s' r r' : Data} : SameMap s s' → SameMap r r' →
    SameMap (.node k s r) (.node k s' r')
  | trans {d₁ d₂ d₃ : Data} : SameMap d₁ d₂ → SameMap d₂ d₃ → SameMap d₁ d₃

/-- The document `{"a": {"x": "1"}, "b": {"y": "2"}}`, visited `a` first. -/
def twoMapsAB : Data :=
  .node "a" (.leaf "x" (.str "1") .nil) (.node "b" (.leaf "y" (.str "2") .nil) .nil)

/-- The document `{"a": {"x": "1"}, "b": {"y": "2"}}`, visited `b` first. -/
def twoMapsBA : Data :=
  .node "b" (.leaf "y" (.str "2") .nil) (.node "a" (.leaf "x" (.str "1") .nil) .nil)

/-- The document `{"a": {"x": "1"}, "b": "2"}`, visited `a` first. -/
def mapThenLeaf : Data :=
  .node "a" (.leaf "x" (.str "1") .nil) (.leaf "b" (.str "2") .nil)

/-- The document `{"a": {"x": "1"}, "b": "2"}`, visited `b` first. -/
def leafThenMap : Data :=
  .leaf "b" (.str "2") (.node "a" (.leaf "x" (.str "1") .nil) .nil)

/-- The document `{"": {"a": "1"}}`. -/
def emptyKeyDoc : Data :=
  .node "" (.leaf "a" (.str "1") .nil) .nil

/-- The document `{"errors": {"not_found": "Not found"}}`. -/
def errorsDoc : Data :=
  .node "errors" (.leaf "not_found" (.str "Not found") .nil) .nil

/-- The argument map `{"name": "Ann", "count": 3}`. -/
def annArgs : ArgMap :=
  fun n => if n = "name" then some (.str "Ann") else if n = "count" then some (.int 3) else none

/-- The table `en -> {greeting -> Hello {name}, you have {count} items,
key -> Hi {x}, {name}! {}`. -/
def greetingTable : Table :=
  fun l => if l = "en" then
    some (fun k =>
      if k = "greeting" then some "Hello {name}, you have {count} items"
      else if k = "key" then some "Hi {x}, {name}! \x7b"
      else none)
  else none

/-! ## Lemmas on flattening -/

theorem store_of_some {T : Table} {lang : String} {m : LangMap} (h : T lang = some m)
    (key v : String) :
    store T lang key v = .done (setLang T lang (fun k => if k = key then some v else m k)) := by
  simp only [store, h]
  rfl

theorem setLang_self (T : Table) (lang : String) (m : LangMap) :
    setLang T lang m lang = some m := by
  simp [setLang]

theorem setLang_setLang (T : Table) (lang : String) (m m' : LangMap) :
    setLang (setLang T lang m) lang m' = setLang T lang m' := by
  funext l
  by_cases h : l = lang <;> simp [setLang, h]

/-- The effect of `parse` on a table that has the inner map of the language. -/
theorem parse_eq_writes (lang : String) (data : Data) :
    ∀ (pfx : String) (T : Table) (m : LangMap), T lang = some m →
      parse lang pfx data T = .done (setLang T lang (applyWrites m (writes pfx data))) := by
  induction data with
  | nil =>
    intro pfx T m h
    simp only [parse, writes, applyWrites]
    congr 1
    funext l
    by_cases hl : l = lang
    · simp [setLang, hl, h]
    · simp [setLang, hl]
  | leaf dataKey item rest ih =>
    intro pfx T m h
    simp only [parse, writes, applyWrites, store_of_some h]
    rw [ih pfx _ _ (setLang_self T lang _), setLang_setLang]
  | node dataKey subdata rest ihs _ =>
    intro pfx T m h
    simp only [parse, writes]
    exact ihs _ T m h

theorem applyWrites_eq_or (ws : List (String × String)) :
    ∀ (m : LangMap) (K : String),
      applyWrites m ws K = m K ∨ ∃ w ∈ ws, K = w.1 ∧ applyWrites m ws K = some w.2 := by
  induction ws with
  | nil => intro m K; left; rfl
  | cons w ws ih =>
    intro m K
    simp only [applyWrites]
    rcases ih (fun k => if k = w.1 then some w.2 else m k) K with h | ⟨w', hw', hK, hv⟩
    · by_cases hk : K = w.1
      · right
        refine ⟨w, List.mem_cons_self _ _, hk, ?_⟩
        rw [h]; simp [hk]
      · left
        rw [h]; simp [hk]
    · right
      exact ⟨w', List.mem_cons_of_mem _ hw', hK, hv⟩

/-- The value of `applyWrites` at a key does not depend on the starting map
once some store hit the key. -/
theorem applyWrites_indep (ws : List (String × String)) :
    ∀ (m m' : LangMap) (K : String), m K = m' K ∨ (∃ w ∈ ws, w.1 = K) →
      applyWrites m ws K = applyWrites m' ws K := by
  induction ws with
  | nil =>
    intro m m' K h
    rcases h with h | ⟨w, hw, _⟩
    · exact h
    · cases hw
  | cons w ws ih =>
    intro m m' K h
    simp only [applyWrites]
    apply ih
    by_cases hk : K = w.1
    · left; simp [hk]
    · rcases h with h | ⟨w', hw', hK⟩
      · left; simp [hk, h]
      · rcases List.mem_cons.mp hw' with rfl | hmem
        · exact absurd hK.symm hk
        · right; exact ⟨w', hmem, hK⟩

theorem applyWrites_of_not_mem (ws : List (String × String)) :
    ∀ (m : LangMap) (K : String), (∀ w ∈ ws, w.1 ≠ K) → applyWrites m ws K = m K := by
  induction ws with
  | nil => intro m K _; rfl
  | cons w ws ih =>
    intro m K h
    simp only [applyWrites]
    rw [ih _ K (fun w' hw' => h w' (List.mem_cons_of_mem _ hw'))]
    have : K ≠ w.1 := fun e => h w (List.mem_cons_self _ _) e.symm
    simp [this]

/-- Every store of `parse` is a leaf of the document under the key that the
chain of its nested keys folds to. -/
theorem writes_sub_leafPaths (data : Data) :
    ∀ (pfx : String) (w : String × String), w ∈ writes pfx data →
      ∃ p ∈ leafPaths data, w.1 = foldKey pfx p.1 ∧ w.2 = p.2.text := by
  induction data with
  | nil => intro pfx w hw; simp [writes] at hw
  | leaf dataKey item rest ih =>
    intro pfx w hw
    simp only [writes, List.mem_cons] at hw
    rcases hw with rfl | hw
    · exact ⟨([dataKey], item), by simp [leafPaths], by simp [foldKey], rfl⟩
    · obtain ⟨p, hp, h1, h2⟩ := ih pfx w hw
      exact ⟨p, by simp [leafPaths, hp], h1, h2⟩
  | node dataKey subdata rest ihs _ =>
    intro pfx w hw
    simp only [writes] at hw
    obtain ⟨p, hp, h1, h2⟩ := ihs _ w hw
    refine ⟨(dataKey :: p.1, p.2), ?_, ?_, h2⟩
    · simp only [leafPaths, List.mem_append, List.mem_map]
      left
      exact ⟨p, hp, rfl⟩
    · simpa [foldKey] using h1

theorem length_pos_iff_ne_empty (s : String) : s.length > 0 ↔ s ≠ "" := by
  cases s with
  | mk d =>
    cases d with
    | nil => simp [String.length]
    | cons c cs =>
      simp only [String.length, List.length_cons, gt_iff_lt, Nat.zero_lt_succ, true_iff]
      intro h
      have := congrArg String.data h
      simp at this

theorem joinKey_of_ne_empty {pfx : String} (h : pfx ≠ "") (k : String) :
    joinKey pfx k = pfx ++ "." ++ k := by
  simp [joinKey, (length_pos_iff_ne_empty pfx).mpr h]

theorem joinKey_empty (k : String) : joinKey "" k = k := by
  simp [joinKey]

theorem append_dot_ne_empty (a k : String) : a ++ "." ++ k ≠ "" := by
  intro h
  have := congrArg String.length h
  simp [String.length_append] at this
  exact absurd this.1.2 (by decide)

theorem foldKey_eq_go (chain : List String) :
    ∀ acc : String, acc ≠ "" → foldKey acc chain = String.intercalate.go acc "." chain := by
  induction chain with
  | nil => intro acc _; rfl
  | cons k ks ih =>
    intro acc h
    simp only [foldKey, List.foldl_cons, String.intercalate.go]
    rw [joinKey_of_ne_empty h]
    exact ih _ (append_dot_ne_empty acc k)

/-- The key that `parse` builds is the dotted key of the specification, unless
the prefix is empty and the chain goes through a nested map under the empty
key at its first step. -/
theorem foldKey_eq_dottedKey (pfx : String) (chain : List String)
    (h : pfx ≠ "" ∨ chain.length ≤ 1 ∨ chain.head? ≠ some "") :
    foldKey pfx chain = dottedKey pfx chain := by
  by_cases hp : pfx = ""
  · subst hp
    cases chain with
    | nil => rfl
    | cons k ks =>
      simp only [dottedKey, if_true, List.nil_append, String.intercalate, foldKey,
        List.foldl_cons, joinKey_empty]
      by_cases hk : k = ""
      · subst hk
        cases ks with
        | nil => rfl
        | cons k' ks' =>
          rcases h with h | h | h
          · exact absurd rfl h
          · simp at h
          · simp at h
      · exact foldKey_eq_go ks k hk
  · simp only [dottedKey, hp, if_false, List.singleton_append, String.intercalate]
    exact foldKey_eq_go chain pfx hp

theorem leafPaths_head (data : Data) (h : emptyKeyNode data = false) :
    ∀ p ∈ leafPaths data, p.1.length ≤ 1 ∨ p.1.head? ≠ some "" := by
  induction data with
  | nil => intro p hp; simp [leafPaths] at hp
  | leaf dataKey item rest ih =>
    intro p hp
    simp only [leafPaths, List.mem_cons] at hp
    rcases hp with rfl | hp
    · left; simp
    · exact ih (by simpa [emptyKeyNode] using h) p hp
  | node dataKey subdata rest _ ihr =>
    intro p hp
    simp only [emptyKeyNode, Bool.or_eq_false_iff, decide_eq_false_iff_not] at h
    simp only [leafPaths, List.mem_append, List.mem_map] at hp
    rcases hp with ⟨q, _, rfl⟩ | hp
    · right
      simpa using h.1
    · exact ihr h.2 p hp

/-- A table that has the inner map of the language keeps it through `parse`,
and `parse` returns normally on it. -/
theorem parse_done_of_some (lang pfx : String) (data : Data) (T : Table)
    (hT : (T lang).isSome) :
    ∃ T', parse lang pfx data T = .done T' ∧ (T' lang).isSome ∧ ∀ l, l ≠ lang → T' l = T l := by
  obtain ⟨m, hm⟩ := Option.isSome_iff_exists.mp hT
  refine ⟨_, parse_eq_writes lang data pfx T m hm, by simp [setLang], ?_⟩
  intro l hl
  simp [setLang, hl]

/-! ## Claims on flattening -/

/-- C1 (code defect): flattening is not complete. On the document
`{"a": {"x": "1"}, "b": {"y": "2"}}`, language `en`, empty prefix, a table with
an empty inner map for `en`, `parse` returns from inside its loop at the first
nested map: visiting `a` first stores `a.x` and never `b.y`, visiting `b` first
stores `b.y` and never `a.x`, although both are leaves of the document. -/
theorem parse_skips_entries_after_nested_map :
    SameMap twoMapsAB twoMapsBA ∧
    (∃ p ∈ leafPaths twoMapsAB, dottedKey "" p.1 = "a.x" ∧ p.2.text = "1") ∧
    (∃ p ∈ leafPaths twoMapsAB, dottedKey "" p.1 = "b.y" ∧ p.2.text = "2") ∧
    (∃ T, parse "en" "" twoMapsAB (freshTable "en") = .done T ∧
      lookup T "en" "a.x" = some "1" ∧ lookup T "en" "b.y" = none) ∧
    (∃ T, parse "en" "" twoMapsBA (freshTable "en") = .done T ∧
      lookup T "en" "b.y" = some "2" ∧ lookup T "en" "a.x" = none) := by
  refine ⟨SameMap.swapNodeNode _ _ _ _ _, ?_, ?_, ⟨_, rfl, ?_, ?_⟩, ⟨_, rfl, ?_, ?_⟩⟩
  · exact ⟨(["a", "x"], .str "1"), by simp [leafPaths, twoMapsAB], by decide, rfl⟩
  · exact ⟨(["b", "y"], .str "2"), by simp [leafPaths, twoMapsAB], by decide, rfl⟩
  all_goals decide

/-- C2 (as stated, refuted): on `{"": {"a": "1"}}` with language `en` and the
empty prefix, `parse` adds the entry `a -> 1`, while the only leaf of the
document has the chain of keys `["", "a"]`, whose dotted key is `.a`. -/
theorem parse_empty_key_not_dotted :
    ∃ T, parse "en" "" emptyKeyDoc (freshTable "en") = .done T ∧
      lookup (freshTable "en") "en" "a" = none ∧
      lookup T "en" "a" = some "1" ∧
      leafPaths emptyKeyDoc = [(["", "a"], .str "1")] ∧
      dottedKey "" ["", "a"] = ".a" ∧
      ∀ p ∈ leafPaths emptyKeyDoc, dottedKey "" p.1 ≠ "a" := by
  refine ⟨_, rfl, by decide, by decide, by decide, by decide, ?_⟩
  intro p hp
  have : p = (["", "a"], Atom.str "1") := by simpa [leafPaths, emptyKeyDoc] using hp
  subst this
  decide

/-- C2 (amended): flattening is sound. When the prefix is not empty, or the
top level of the document has no nested map under the empty key, `parse` on a
table with an inner map for the language returns normally, leaves every other
language as it was, and every key of the language either keeps what it held or
is the dotted key of a leaf of the document and holds the text of that leaf. -/
theorem parse_sound (lang pfx : String) (data : Data) (T : Table)
    (hT : (T lang).isSome) (hP : pfx ≠ "" ∨ emptyKeyNode data = false) :
    ∃ T', parse lang pfx data T = .done T' ∧
      (∀ l, l ≠ lang → T' l = T l) ∧
      (T' lang).isSome ∧
      ∀ K, lookup T' lang K = lookup T lang K ∨
        ∃ p ∈ leafPaths data, K = dottedKey pfx p.1 ∧ lookup T' lang K = some p.2.text := by
  obtain ⟨m, hm⟩ := Option.isSome_iff_exists.mp hT
  refine ⟨_, parse_eq_writes lang data pfx T m hm, ?_, by simp [setLang], ?_⟩
  · intro l hl
    simp [setLang, hl]
  · intro K
    have hl : lookup (setLang T lang (applyWrites m (writes pfx data))) lang K
        = applyWrites m (writes pfx data) K := by simp [lookup, setLang]
    have hl0 : lookup T lang K = m K := by simp [lookup, hm]
    rw [hl, hl0]
    rcases applyWrites_eq_or (writes pfx data) m K with h | ⟨w, hw, hK, hv⟩
    · exact Or.inl h
    · right
      obtain ⟨p, hp, h1, h2⟩ := writes_sub_leafPaths data pfx w hw
      refine ⟨p, hp, ?_, by rw [hv, h2]⟩
      rw [hK, h1]
      apply foldKey_eq_dottedKey
      rcases hP with hP | hP
      · exact Or.inl hP
      · exact Or.inr (leafPaths_head data hP p hp)

/-- C2 (witness): language `en`, prefix `messages`, document
`{"errors": {"not_found": "Not found"}}`, on the table with an empty inner map
for `en`: the result is exactly `en -> {messages.errors.not_found -> Not found}`. -/
theorem parse_sound_witness :
    ((freshTable "en" "en").isSome ∧ ("messages" ≠ "" ∨ emptyKeyNode errorsDoc = false)) ∧
    (∃ T', parse "en" "messages" errorsDoc (freshTable "en") = .done T' ∧
      (∀ l, l ≠ "en" → T' l = freshTable "en" l) ∧
      ( T' "en").isSome ∧
      ∀ K, lookup T' "en" K = lookup (freshTable "en") "en" K ∨
        ∃ p ∈ leafPaths errorsDoc, K = dottedKey "messages" p.1 ∧
          lookup T' "en" K = some p.2.text) ∧
    (∃ T', parse "en" "messages" errorsDoc (freshTable "en") = .done T' ∧
      ∀ l K, lookup T' l K =
        if l = "en" ∧ K = "messages.errors.not_found" then some "Not found" else none) :=
  ⟨⟨by decide, Or.inl (by decide)⟩,
   parse_sound "en" "messages" errorsDoc (freshTable "en") (by decide) (Or.inl (by decide)),
   ⟨_, rfl, by
      intro l K
      have hj : joinKey (joinKey "messages" "errors") "not_found"
          = "messages.errors.not_found" := by decide
      simp only [lookup, hj, Atom.text, freshTable, emptyLangMap]
      by_cases hl : l = "en" <;> by_cases hK : K = "messages.errors.not_found" <;>
        simp [hl, hK]⟩⟩

/-- C9: a later flattening wins, silently. If one flattening stores `K -> v₁`
for the language and a later one stores `K -> v₂`, then on every table with an
inner map for the language both calls of `parse` return with a nil error, the
table maps `K` to `v₁` after the first and to `v₂` after the second; and
`parse` returns a non-nil error for no document and no table at all. -/
theorem later_flattening_wins (lang pfx₁ pfx₂ : String) (data₁ data₂ : Data) (T : Table)
    (K v₁ v₂ : String) (hT : (T lang).isSome)
    (h₁ : stores lang pfx₁ data₁ K v₁) (h₂ : stores lang pfx₂ data₂ K v₂) :
    (∃ T₁ T₂, parse lang pfx₁ data₁ T = .done T₁ ∧ parse lang pfx₂ data₂ T₁ = .done T₂ ∧
      lookup T₁ lang K = some v₁ ∧ lookup T₂ lang K = some v₂) ∧
    (∀ (l p : String) (d : Data) (T₀ : Table) (e : String), parse l p d T₀ ≠ .failed e) := by
  have key : ∀ (pfx : String) (data : Data) (v : String) (T₀ : Table) (m : LangMap),
      stores lang pfx data K v → T₀ lang = some m →
      applyWrites m (writes pfx data) K = some v := by
    intro pfx data v T₀ m hs hm
    have hf : freshTable lang lang = some emptyLangMap := by simp [freshTable]
    have hs' : applyWrites emptyLangMap (writes pfx data) K = some v := by
      simpa [stores, parse_eq_writes lang data pfx _ _ hf, lookupAfter, lookup, setLang]
        using hs
    have hmem : ∃ w ∈ writes pfx data, w.1 = K := by
      by_contra hne
      have hall : ∀ w ∈ writes pfx data, w.1 ≠ K := fun w hw e => hne ⟨w, hw, e⟩
      rw [applyWrites_of_not_mem _ _ _ hall] at hs'
      simp [emptyLangMap] at hs'
    rw [applyWrites_indep (writes pfx data) m emptyLangMap K (Or.inr hmem)]
    exact hs'
  constructor
  · obtain ⟨m, hm⟩ := Option.isSome_iff_exists.mp hT
    have hm₁ : setLang T lang (applyWrites m (writes pfx₁ data₁)) lang
        = some (applyWrites m (writes pfx₁ data₁)) := setLang_self _ _ _
    refine ⟨_, _, parse_eq_writes lang data₁ pfx₁ T m hm,
      parse_eq_writes lang data₂ pfx₂ _ _ hm₁, ?_, ?_⟩
    · simpa [lookup, setLang] using key pfx₁ data₁ v₁ T m h₁ hm
    · simpa [lookup, setLang] using key pfx₂ data₂ v₂ _ _ h₂ hm₁
  · intro l p d
    induction d generalizing p with
    | nil => intro T₀ e h; simp [parse] at h
    | leaf dataKey item rest ih =>
      intro T₀ e h
      simp only [parse, store] at h
      cases hl : T₀ l with
      | none => simp [hl] at h
      | some m => simp only [hl] at h; exact ih _ _ _ h
    | node dataKey subdata rest ihs _ =>
      intro T₀ e h
      simp only [parse] at h
      exact ihs _ _ _ h

/-- C9 (witness): `{"k": "old"}` and then `{"k": "new"}` under the prefix `p`
for `en` leave `p.k -> new`. -/
theorem later_flattening_wins_witness :
    ((freshTable "en" "en").isSome ∧
      stores "en" "p" (.leaf "k" (.str "old") .nil) "p.k" "old" ∧
      stores "en" "p" (.leaf "k" (.str "new") .nil) "p.k" "new") ∧
    ((∃ T₁ T₂, parse "en" "p" (.leaf "k" (.str "old") .nil) (freshTable "en") = .done T₁ ∧
        parse "en" "p" (.leaf "k" (.str "new") .nil) T₁ = .done T₂ ∧
        lookup T₁ "en" "p.k" = some "old" ∧ lookup T₂ "en" "p.k" = some "new") ∧
      (∀ (l p : String) (d : Data) (T₀ : Table) (e : String), parse l p d T₀ ≠ .failed e)) :=
  ⟨⟨by decide, by decide, by decide⟩,
   later_flattening_wins "en" "p" "p" (.leaf "k" (.str "old") .nil)
     (.leaf "k" (.str "new") .nil) (freshTable "en") "p.k" "old" "new"
     (by decide) (by decide) (by decide)⟩

/-- C10 (code defect): the result of flattening depends on the visiting order.
The document `{"a": {"x": "1"}, "b": "2"}` visited `a` first ends at the nested
map and never stores `b`; visited `b` first it stores `b -> 2` as well. -/
theorem parse_depends_on_visiting_order :
    SameMap mapThenLeaf leafThenMap ∧
    ∃ T₁ T₂, parse "en" "" mapThenLeaf (freshTable "en") = .done T₁ ∧
      parse "en" "" leafThenMap (freshTable "en") = .done T₂ ∧
      lookup T₁ "en" "a.x" = some "1" ∧ lookup T₂ "en" "a.x" = some "1" ∧
      lookup T₁ "en" "b" = none ∧ lookup T₂ "en" "b" = some "2" ∧ T₁ ≠ T₂ := by
  refine ⟨SameMap.swapNodeLeaf _ _ _ _ _, _, _, rfl, rfl, by decide, by decide,
    by decide, by decide, ?_⟩
  intro h
  have h' := congrArg (fun T => lookup T "en" "b") h
  revert h'
  decide

/-! ## Claims on the resolver -/

/-- C3: a missing translation echoes the key. When the language is not in the
table, or it is and the key is not in its inner map, `Translate` returns the
key itself, whatever the argument maps are. -/
theorem translate_missing_echoes_key (t : translator) (L K : String) (args : List ArgMap)
    (h : t.translates L = none ∨ ∃ m, t.translates L = some m ∧ m K = none) :
    Translate t L K args = K := by
  rcases h with h | ⟨m, hm, hK⟩
  · simp [Translate, h]
  · simp [Translate, hm, hK]

/-- C3 (witness): both ways of missing, with a placeholder in the key. -/
theorem translate_missing_echoes_key_witness :
    Translate ⟨"", "json", emptyTable⟩ "en" "hello {name}" [annArgs] = "hello {name}" ∧
    Translate ⟨"", "json", freshTable "en"⟩ "en" "hello {name}" [annArgs] = "hello {name}" :=
  ⟨translate_missing_echoes_key ⟨"", "json", emptyTable⟩ "en" "hello {name}" [annArgs]
     (Or.inl rfl),
   translate_missing_echoes_key ⟨"", "json", freshTable "en"⟩ "en" "hello {name}" [annArgs]
     (Or.inr ⟨emptyLangMap, by simp [freshTable], rfl⟩)⟩

/-- C5: an empty root directory disables loading. `New("", F)` returns, without
consulting the file system, a translator with the empty table, and on it
`Translate` returns the key for every language, key and argument maps. -/
theorem new_empty_dir_echoes (env : Env) (F : String) :
    ∃ t, New env "" F = .done t ∧ t.translates = emptyTable ∧
      ∀ (L K : String) (args : List ArgMap), Translate t L K args = K := by
  refine ⟨⟨"", F, emptyTable⟩, by simp [New], rfl, ?_⟩
  intro L K args
  simp [Translate, emptyTable]

/-! ## Lemmas on the scan -/

theorem scanArgs_none_append (args : List ArgMap) (rest : List Char) :
    ∀ pre : List Char, '{' ∉ pre →
      scanArgs args none (pre ++ rest) = pre ++ scanArgs args none rest := by
  intro pre
  induction pre with
  | nil => intro _; rfl
  | cons c cs ih =>
    intro h
    have hc : c ≠ '{' := fun e => h (by simp [e])
    have hcs : '{' ∉ cs := fun e => h (List.mem_cons_of_mem _ e)
    simp [scanArgs, hc, ih hcs]

theorem scanArgs_some_name (args : List ArgMap) (rest : List Char) :
    ∀ (name buf : List Char), '{' ∉ name → '}' ∉ name →
      scanArgs args (some buf) (name ++ '}' :: rest) =
        match argValue args ⟨buf ++ name⟩ with
        | some v => v.text.data ++ scanArgs args none rest
        | none => '{' :: (buf ++ name ++ '}' :: scanArgs args none rest) := by
  intro name
  induction name with
  | nil =>
    intro buf _ _
    simp [scanArgs]
  | cons c cs ih =>
    intro buf h₁ h₂
    have hc₁ : c ≠ '{' := fun e => h₁ (by simp [e])
    have hc₂ : c ≠ '}' := fun e => h₂ (by simp [e])
    have hcs₁ : '{' ∉ cs := fun e => h₁ (List.mem_cons_of_mem _ e)
    have hcs₂ : '}' ∉ cs := fun e => h₂ (List.mem_cons_of_mem _ e)
    have hstep : scanArgs args (some buf) (c :: (cs ++ '}' :: rest))
        = scanArgs args (some (buf ++ [c])) (cs ++ '}' :: rest) := by
      simp [scanArgs, hc₁, hc₂]
    rw [List.cons_append, hstep, ih (buf ++ [c]) hcs₁ hcs₂]
    simp

theorem scanArgs_some_stray (args : List ArgMap) (tail : List Char) :
    ∀ (body buf : List Char), '{' ∉ body → '}' ∉ body →
      scanArgs args (some buf) (body ++ '{' :: tail)
        = '{' :: (buf ++ body ++ scanArgs args (some []) tail) := by
  intro body
  induction body with
  | nil =>
    intro buf _ _
    simp [scanArgs]
  | cons c cs ih =>
    intro buf h₁ h₂
    have hc₁ : c ≠ '{' := fun e => h₁ (by simp [e])
    have hc₂ : c ≠ '}' := fun e => h₂ (by simp [e])
    have hcs₁ : '{' ∉ cs := fun e => h₁ (List.mem_cons_of_mem _ e)
    have hcs₂ : '}' ∉ cs := fun e => h₂ (List.mem_cons_of_mem _ e)
    have hstep : scanArgs args (some buf) (c :: (cs ++ '{' :: tail))
        = scanArgs args (some (buf ++ [c])) (cs ++ '{' :: tail) := by
      simp [scanArgs, hc₁, hc₂]
    rw [List.cons_append, hstep, ih (buf ++ [c]) hcs₁ hcs₂]
    simp

theorem scanArgs_some_end (args : List ArgMap) :
    ∀ (body buf : List Char), '{' ∉ body → '}' ∉ body →
      scanArgs args (some buf) body = '{' :: (buf ++ body) := by
  intro body
  induction body with
  | nil =>
    intro buf _ _
    simp [scanArgs]
  | cons c cs ih =>
    intro buf h₁ h₂
    have hc₁ : c ≠ '{' := fun e => h₁ (by simp [e])
    have hc₂ : c ≠ '}' := fun e => h₂ (by simp [e])
    have hcs₁ : '{' ∉ cs := fun e => h₁ (List.mem_cons_of_mem _ e)
    have hcs₂ : '}' ∉ cs := fun e => h₂ (List.mem_cons_of_mem _ e)
    have hstep : scanArgs args (some buf) (c :: cs) = scanArgs args (some (buf ++ [c])) cs := by
      simp [scanArgs, hc₁, hc₂]
    rw [hstep, ih (buf ++ [c]) hcs₁ hcs₂]
    simp

theorem rawChars_of_startsOpen {ps : List Piece} (h : startsOpen ps = true) :
    ps = [] ∨ ∃ tail, rawChars ps = '{' :: tail := by
  cases ps with
  | nil => exact Or.inl rfl
  | cons p rest =>
    right
    cases p with
    | lit s => simp [startsOpen] at h
    | hole n => exact ⟨_, rfl⟩
    | stray s => exact ⟨_, rfl⟩

/-- The scan replaces every placeholder of a well-formed sequence of pieces
and leaves the rest as written. -/
theorem scanArgs_pieces (args : List ArgMap) :
    ∀ ps : List Piece, wellFormed ps = true →
      scanArgs args none (rawChars ps) = substChars args ps := by
  intro ps
  induction ps with
  | nil => intro _; rfl
  | cons p rest ih =>
    intro h
    cases p with
    | lit s =>
      simp only [wellFormed, Bool.and_eq_true, decide_eq_true_eq] at h
      simp only [rawChars, substChars, Piece.raw, Piece.subst]
      rw [scanArgs_none_append args _ s.data h.1, ih h.2]
    | hole n =>
      simp only [wellFormed, Bool.and_eq_true, decide_eq_true_eq] at h
      have hstep : scanArgs args none ('{' :: (n.data ++ '}' :: rawChars rest))
          = scanArgs args (some []) (n.data ++ '}' :: rawChars rest) := by
        simp [scanArgs]
      simp only [rawChars, substChars, Piece.raw, Piece.subst, List.cons_append,
        List.append_assoc, List.singleton_append, List.nil_append]
      rw [hstep, scanArgs_some_name args _ n.data [] h.1.1 h.1.2, ih h.2]
      cases hv : argValue args n with
      | none => simp [hv]
      | some v => simp [hv]
    | stray s =>
      simp only [wellFormed, Bool.and_eq_true, decide_eq_true_eq] at h
      obtain ⟨⟨⟨h₁, h₂⟩, h₃⟩, h₄⟩ := h
      simp only [rawChars, substChars, Piece.raw, Piece.subst, List.cons_append]
      rw [← ih h₄]
      rcases rawChars_of_startsOpen h₃ with hnil | ⟨tail, htail⟩
      · subst hnil
        have h0 : scanArgs args none ('{' :: (s.data ++ rawChars []))
            = scanArgs args (some []) s.data := by
          simp [scanArgs, rawChars]
        rw [h0, scanArgs_some_end args s.data [] h₁ h₂]
        simp [rawChars, scanArgs]
      · rw [htail]
        have h0 : scanArgs args none ('{' :: (s.data ++ '{' :: tail))
            = scanArgs args (some []) (s.data ++ '{' :: tail) := by
          simp [scanArgs]
        have h1 : scanArgs args none ('{' :: tail) = scanArgs args (some []) tail := by
          simp [scanArgs]
        rw [h0, scanArgs_some_stray args tail s.data [] h₁ h₂, h1]
        simp

theorem tokenize_raw :
    ∀ (cs : List Char) (b : Bool) (acc : List Char),
      rawChars (tokenize b acc cs) = (if b then '{' :: acc else acc) ++ cs := by
  intro cs
  induction cs with
  | nil =>
    intro b acc
    cases b <;> simp [tokenize, rawChars, Piece.raw]
  | cons c cs ih =>
    intro b acc
    cases b with
    | false =>
      by_cases hc : c = '{'
      · simp [tokenize, hc, rawChars, Piece.raw, ih]
      · simp [tokenize, hc, ih]
    | true =>
      by_cases hc : c = '}'
      · simp [tokenize, hc, rawChars, Piece.raw, ih]
      · by_cases hc' : c = '{'
        · simp [tokenize, hc', rawChars, Piece.raw, ih]
        · simp [tokenize, hc, hc', ih]

theorem tokenize_startsOpen :
    ∀ (cs acc : List Char), startsOpen (tokenize true acc cs) = true := by
  intro cs
  induction cs with
  | nil => intro acc; rfl
  | cons c cs ih =>
    intro acc
    by_cases hc : c = '}'
    · simp [tokenize, hc, startsOpen]
    · by_cases hc' : c = '{'
      · simp [tokenize, hc', startsOpen]
      · simp [tokenize, hc, hc', ih]

theorem tokenize_wellFormed :
    ∀ (cs : List Char) (b : Bool) (acc : List Char),
      '{' ∉ acc → (b = true → '}' ∉ acc) → wellFormed (tokenize b acc cs) = true := by
  intro cs
  induction cs with
  | nil =>
    intro b acc h₁ h₂
    cases b with
    | false => simp [tokenize, wellFormed, h₁]
    | true => simp [tokenize, wellFormed, h₁, h₂ rfl, startsOpen]
  | cons c cs ih =>
    intro b acc h₁ h₂
    have hnil₁ : '{' ∉ ([] : List Char) := by simp
    have hnil₂ : '}' ∉ ([] : List Char) := by simp
    cases b with
    | false =>
      by_cases hc : c = '{'
      · simp [tokenize, hc, wellFormed, h₁, ih true [] hnil₁ (fun _ => hnil₂)]
      · have hacc : '{' ∉ acc ++ [c] := by
          simp only [List.mem_append, List.mem_singleton, not_or]
          exact ⟨h₁, fun e => hc e.symm⟩
        simpa [tokenize, hc] using ih false (acc ++ [c]) hacc (by simp)
    | true =>
      by_cases hc : c = '}'
      · simp [tokenize, hc, wellFormed, h₁, h₂ rfl, ih false [] hnil₁ (by simp)]
      · by_cases hc' : c = '{'
        · simp [tokenize, hc', wellFormed, h₁, h₂ rfl, tokenize_startsOpen,
            ih true [] hnil₁ (fun _ => hnil₂)]
        · have hacc₁ : '{' ∉ acc ++ [c] := by
            simp only [List.mem_append, List.mem_singleton, not_or]
            exact ⟨h₁, fun e => hc' e.symm⟩
          have hacc₂ : '}' ∉ acc ++ [c] := by
            simp only [List.mem_append, List.mem_singleton, not_or]
            exact ⟨h₂ rfl, fun e => hc e.symm⟩
          simpa [tokenize, hc, hc'] using ih true (acc ++ [c]) hacc₁ (fun _ => hacc₂)

/-! ## Claims on the resolver: substitution -/

/-- C4: placeholder substitution. For a key whose stored string is `S`,
`Translate` returns `replaceArgs S args`. However `S` is cut into literal text,
placeholders `{name}` and stray opening braces, the result is `S` with each
placeholder whose name the argument maps supply replaced by the textual form of
that value, and every other piece as written; every stored string can be cut
in this way, so this fixes the result for every `S`. The value supplied for a
name is that of the last argument map that has the name. For
`Hello {name}, you have {count} items` and `{"name": "Ann", "count": 3}` the
result is `Hello Ann, you have 3 items`. -/
theorem translate_substitutes (t : translator) (L K S : String) (args : List ArgMap)
    (hS : lookup t.translates L K = some S) :
    Translate t L K args = replaceArgs S args ∧
    (∀ ps : List Piece, wellFormed ps = true → rawPieces ps = S →
      Translate t L K args = substPieces args ps) ∧
    (wellFormed (piecesOf S) = true ∧ rawPieces (piecesOf S) = S) ∧
    (∀ (maps : List ArgMap) (m : ArgMap) (name : String),
      argValue [] name = none ∧
      argValue (maps ++ [m]) name =
        match m name with
        | some v => some v
        | none => argValue maps name) ∧
    replaceArgs "Hello {name}, you have {count} items" [annArgs]
      = "Hello Ann, you have 3 items" := by
  have hT : Translate t L K args = replaceArgs S args := by
    unfold lookup at hS
    cases hl : t.translates L with
    | none => simp [hl] at hS
    | some m =>
      simp only [hl] at hS
      simp [Translate, hl, hS]
  refine ⟨hT, ?_, ⟨?_, ?_⟩, ?_, by decide⟩
  · intro ps hwf hraw
    rw [hT, ← hraw]
    simp only [replaceArgs, rawPieces, substPieces]
    rw [scanArgs_pieces args ps hwf]
  · exact tokenize_wellFormed S.data false [] (by simp) (by simp)
  · apply String.ext
    simp [rawPieces, piecesOf, tokenize_raw]
  · intro maps m name
    exact ⟨rfl, by simp [argValue, List.foldl_append]⟩

/-- C4 (witness): the greeting of the specification through `Translate`, cut
into its five pieces; and a stored string whose first placeholder has no value
and whose second has one. -/
theorem translate_substitutes_witness :
    lookup greetingTable "en" "greeting" = some "Hello {name}, you have {count} items" ∧
    Translate ⟨"", "json", greetingTable⟩ "en" "greeting" [annArgs]
      = "Hello Ann, you have 3 items" ∧
    Translate ⟨"", "json", greetingTable⟩ "en" "greeting" [annArgs]
      = substPieces [annArgs]
          [.lit "Hello ", .hole "name", .lit ", you have ", .hole "count", .lit " items"] ∧
    Translate ⟨"", "json", greetingTable⟩ "en" "key" [annArgs] = "Hi {x}, Ann! \x7b" :=
  ⟨by decide,
   (translate_substitutes ⟨"", "json", greetingTable⟩ "en" "greeting"
      "Hello {name}, you have {count} items" [annArgs] (by decide)).1.trans (by decide),
   (translate_substitutes ⟨"", "json", greetingTable⟩ "en" "greeting"
      "Hello {name}, you have {count} items" [annArgs] (by decide)).2.1
      [.lit "Hello ", .hole "name", .lit ", you have ", .hole "count", .lit " items"]
      (by decide) (by decide),
   ((translate_substitutes ⟨"", "json", greetingTable⟩ "en" "key"
      "Hi {x}, {name}! \x7b" [annArgs] (by decide)).2.1
      [.lit "Hi ", .hole "x", .lit ", ", .hole "name", .lit "! ", .stray ""]
      (by decide) (by decide)).trans (by decide)⟩

/-! ## Lemmas on the string helpers -/

theorem HasSuffix_iff (s suffix : String) :
    HasSuffix s suffix = true ↔ ∃ L : String, L ++ suffix = s := by
  simp only [HasSuffix, List.isSuffixOf_iff_suffix]
  constructor
  · rintro ⟨l, hl⟩
    exact ⟨⟨l⟩, String.ext (by simp [String.data_append, hl])⟩
  · rintro ⟨L, rfl⟩
    exact ⟨L.data, by simp [String.data_append]⟩

theorem HasPrefix_append (pre r : String) : HasPrefix (pre ++ r) pre = true := by
  simp [HasPrefix, String.data_append]

theorem TrimSuffix_append (L suffix : String) : TrimSuffix (L ++ suffix) suffix = L := by
  have h : HasSuffix (L ++ suffix) suffix = true := (HasSuffix_iff _ _).mpr ⟨L, rfl⟩
  simp only [TrimSuffix, h, if_true]
  apply String.ext
  simp [String.data_append]

theorem TrimPrefix_append (pre r : String) : TrimPrefix (pre ++ r) pre = r := by
  simp only [TrimPrefix, HasPrefix_append, if_true]
  apply String.ext
  simp [String.data_append]

theorem TrimPrefix_of_not {s pre : String} (h : HasPrefix s pre = false) :
    TrimPrefix s pre = s := by
  simp [TrimPrefix, h]

/-! ## Lemmas on paths -/

theorem splitSlash_of_not_mem : ∀ x : List Char, '/' ∉ x → splitSlash x = [x] := by
  intro x
  induction x with
  | nil => intro _; rfl
  | cons c cs ih =>
    intro h
    have hc : c ≠ '/' := fun e => h (by simp [e])
    have hcs : '/' ∉ cs := fun e => h (List.mem_cons_of_mem _ e)
    simp [splitSlash, hc, ih hcs]

theorem splitSlash_append (r : List Char) :
    ∀ x : List Char, '/' ∉ x → splitSlash (x ++ '/' :: r) = x :: splitSlash r := by
  intro x
  induction x with
  | nil => intro _; simp [splitSlash]
  | cons c cs ih =>
    intro h
    have hc : c ≠ '/' := fun e => h (by simp [e])
    have hcs : '/' ∉ cs := fun e => h (List.mem_cons_of_mem _ e)
    simp [splitSlash, hc, ih hcs]

theorem splitSlash_joinSlash :
    ∀ xs : List (List Char), xs ≠ [] → (∀ x ∈ xs, '/' ∉ x) →
      splitSlash (joinSlash xs) = xs := by
  intro xs
  induction xs with
  | nil => intro h; exact absurd rfl h
  | cons x rest ih =>
    intro _ hall
    cases rest with
    | nil => simpa [joinSlash] using splitSlash_of_not_mem x (hall x (by simp))
    | cons y rest' =>
      simp only [joinSlash]
      rw [splitSlash_append _ x (hall x (by simp)),
        ih (by simp) (fun z hz => hall z (List.mem_cons_of_mem _ hz))]

theorem joinSlash_append :
    ∀ xs ys : List (List Char), xs ≠ [] → ys ≠ [] →
      joinSlash (xs ++ ys) = joinSlash xs ++ '/' :: joinSlash ys := by
  intro xs
  induction xs with
  | nil => intro ys h; exact absurd rfl h
  | cons x rest ih =>
    intro ys _ hys
    cases rest with
    | nil =>
      cases ys with
      | nil => exact absurd rfl hys
      | cons y ys' => simp [joinSlash]
    | cons z rest' =>
      have := ih ys (by simp) hys
      simp only [List.cons_append] at this ⊢
      simp only [joinSlash, this, List.append_assoc, List.cons_append]

theorem properName_iff (n : String) : properName n = true ↔ ProperChars n.data := by
  simp [properName, ProperChars, and_assoc]

theorem foldl_cleanStep_proper (rooted : Bool) :
    ∀ (xs kept : List (List Char)), (∀ x ∈ xs, ProperChars x) →
      xs.foldl (cleanStep rooted) kept = kept ++ xs := by
  intro xs
  induction xs with
  | nil => intro kept _; simp
  | cons x rest ih =>
    intro kept h
    obtain ⟨h₁, _, h₃, h₄⟩ := h x (by simp)
    simp only [List.foldl_cons]
    have hstep : cleanStep rooted kept x = kept ++ [x] := by
      simp [cleanStep, h₁, h₃, h₄]
    rw [hstep, ih _ (fun z hz => h z (List.mem_cons_of_mem _ hz))]
    simp

theorem joinSlash_head (x : List Char) (rest : List (List Char)) (c : Char) (cs : List Char)
    (hx : x = c :: cs) : ∃ tail, joinSlash (x :: rest) = c :: tail := by
  subst hx
  cases rest with
  | nil => exact ⟨cs, rfl⟩
  | cons y ys => exact ⟨cs ++ '/' :: joinSlash (y :: ys), rfl⟩

theorem Clean_eq (path : String) (rooted : Bool) (kept : List (List Char))
    (h₁ : decide (path.data.head? = some '/') = rooted)
    (h₂ : (splitSlash path.data).foldl (cleanStep rooted) [] = kept)
    (h₃ : (if rooted then ['/'] else []) ++ joinSlash kept ≠ []) :
    Clean path = ⟨(if rooted then ['/'] else []) ++ joinSlash kept⟩ := by
  subst h₁
  subst h₂
  simp only [Clean]
  simp only [decide_eq_true_eq] at h₃ ⊢
  rw [if_neg h₃]

theorem map_data_proper {names : List String} (hp : ∀ n ∈ names, properName n = true) :
    ∀ x ∈ names.map String.data, ProperChars x := by
  intro x hx
  obtain ⟨n, hn, rfl⟩ := List.mem_map.mp hx
  exact (properName_iff n).mp (hp n hn)

theorem joinSlash_proper_head {xs : List (List Char)} (hne : xs ≠ [])
    (hp : ∀ x ∈ xs, ProperChars x) :
    ∃ c tail, c ≠ '/' ∧ joinSlash xs = c :: tail := by
  cases xs with
  | nil => exact absurd rfl hne
  | cons x rest =>
    obtain ⟨h₁, h₂, _, _⟩ := hp x (by simp)
    cases x with
    | nil => exact absurd rfl h₁
    | cons c cs =>
      obtain ⟨tail, ht⟩ := joinSlash_head (c :: cs) rest c cs rfl
      exact ⟨c, tail, fun e => h₂ (by simp [e]), ht⟩

/-- A path of proper names is clean. -/
theorem Clean_renderPath (rooted : Bool) (names : List String) (hne : names ≠ [])
    (hp : ∀ n ∈ names, properName n = true) :
    Clean (renderPath rooted names) = renderPath rooted names := by
  have hxs : names.map String.data ≠ [] := by simpa using hne
  have hpx := map_data_proper hp
  obtain ⟨c, tail, hc, hj⟩ := joinSlash_proper_head hxs hpx
  have hsplit := splitSlash_joinSlash _ hxs (fun x hx => (hpx x hx).2.1)
  cases rooted with
  | true =>
    have hd : (renderPath true names).data = '/' :: joinSlash (names.map String.data) := by
      simp [renderPath]
    have hs : splitSlash ('/' :: joinSlash (names.map String.data))
        = [] :: names.map String.data := by
      rw [← hsplit]; simp [splitSlash, hsplit]
    apply Clean_eq _ true
    · rw [hd]; simp
    · rw [hd, hs]
      simp only [List.foldl_cons]
      have h0 : cleanStep true [] [] = [] := by simp [cleanStep]
      rw [h0, foldl_cleanStep_proper true _ [] hpx]
      simp
    · simp
  | false =>
    have hd : (renderPath false names).data = joinSlash (names.map String.data) := by
      simp [renderPath]
    apply Clean_eq _ false
    · rw [hd, hj]; simp [hc]
    · rw [hd, hsplit, foldl_cleanStep_proper false _ [] hpx]
      simp
    · simp [hj]

/-- A leading `./` before a relative path of proper names is cleaned away. -/
theorem Clean_dotSlash (names : List String) (hne : names ≠ [])
    (hp : ∀ n ∈ names, properName n = true) :
    Clean ("./" ++ renderPath false names) = renderPath false names := by
  have hxs : names.map String.data ≠ [] := by simpa using hne
  have hpx := map_data_proper hp
  obtain ⟨c, tail, hc, hj⟩ := joinSlash_proper_head hxs hpx
  have hsplit := splitSlash_joinSlash _ hxs (fun x hx => (hpx x hx).2.1)
  have hd : ("./" ++ renderPath false names).data
      = ['.'] ++ '/' :: joinSlash (names.map String.data) := by
    simp [renderPath, String.data_append]
  apply Clean_eq _ false
  · rw [hd]; simp
  · rw [hd, splitSlash_append _ ['.'] (by simp), hsplit]
    simp only [List.foldl_cons]
    have h0 : cleanStep false [] ['.'] = [] := by simp [cleanStep]
    rw [h0, foldl_cleanStep_proper false _ [] hpx]
    simp
  · simp [hj]

theorem renderPath_snoc (rooted : Bool) (names : List String) (hne : names ≠ [])
    (n : String) :
    renderPath rooted names ++ "/" ++ n = renderPath rooted (names ++ [n]) := by
  apply String.ext
  have hxs : names.map String.data ≠ [] := by simpa using hne
  simp only [renderPath, String.data_append, List.map_append, List.map_cons, List.map_nil]
  rw [joinSlash_append _ _ hxs (by simp)]
  simp [joinSlash]

theorem renderPath_ne_empty (rooted : Bool) (names : List String) (hne : names ≠ [])
    (hp : ∀ n ∈ names, properName n = true) : renderPath rooted names ≠ "" := by
  have hxs : names.map String.data ≠ [] := by simpa using hne
  obtain ⟨c, tail, _, hj⟩ := joinSlash_proper_head hxs (map_data_proper hp)
  intro h
  have := congrArg String.data h
  simp [renderPath, hj] at this

theorem proper_ne_empty {n : String} (h : properName n = true) : n ≠ "" := by
  intro e
  subst e
  simp [properName] at h

theorem proper_snoc {names : List String} {n : String}
    (hp : ∀ m ∈ names, properName m = true) (hn : properName n = true) :
    ∀ m ∈ names ++ [n], properName m = true := by
  intro m hm
  rcases List.mem_append.mp hm with h | h
  · exact hp m h
  · simp only [List.mem_singleton] at h
    rw [h]; exact hn

theorem Join_renderPath (rooted : Bool) (names : List String) (hne : names ≠ [])
    (hp : ∀ n ∈ names, properName n = true) (n : String) (hn : properName n = true) :
    Join (renderPath rooted names) n = renderPath rooted (names ++ [n]) := by
  simp only [Join, renderPath_ne_empty rooted names hne hp, proper_ne_empty hn, if_false]
  rw [renderPath_snoc rooted names hne n]
  exact Clean_renderPath rooted _ (by simp) (proper_snoc hp hn)

theorem Join_dotSlash (names : List String) (hne : names ≠ [])
    (hp : ∀ n ∈ names, properName n = true) (n : String) (hn : properName n = true) :
    Join ("./" ++ renderPath false names) n = renderPath false (names ++ [n]) := by
  have h0 : "./" ++ renderPath false names ≠ "" := by
    intro h
    have := congrArg String.length h
    simp [String.length_append] at this
    exact absurd this.1 (by decide)
  simp only [Join, h0, proper_ne_empty hn, if_false]
  rw [String.append_assoc, String.append_assoc, ← String.append_assoc (renderPath false names),
    renderPath_snoc false names hne n]
  exact Clean_dotSlash _ (by simp) (proper_snoc hp hn)

theorem foldl_Join_renderPath (rooted : Bool) :
    ∀ (dirs names : List String), names ≠ [] → (∀ n ∈ names, properName n = true) →
      (∀ d ∈ dirs, properName d = true) →
      dirs.foldl Join (renderPath rooted names) = renderPath rooted (names ++ dirs) := by
  intro dirs
  induction dirs with
  | nil => intro names _ _ _; simp
  | cons d ds ih =>
    intro names hne hp hd
    have hd₁ : properName d = true := hd d (by simp)
    simp only [List.foldl_cons]
    rw [Join_renderPath rooted names hne hp d hd₁,
      ih (names ++ [d]) (by simp) (proper_snoc hp hd₁)
        (fun x hx => hd x (List.mem_cons_of_mem _ hx))]
    simp

theorem renderPath_append (rooted : Bool) (names dirs : List String) (hne : names ≠ [])
    (hd : dirs ≠ []) :
    renderPath rooted (names ++ dirs) = renderPath rooted names ++ "/" ++ renderPath false dirs := by
  apply String.ext
  have h₁ : names.map String.data ≠ [] := by simpa using hne
  have h₂ : dirs.map String.data ≠ [] := by simpa using hd
  simp only [renderPath, String.data_append, List.map_append]
  rw [joinSlash_append _ _ h₁ h₂]
  simp

theorem pathOf_renderPath (rooted : Bool) (comps dirs : List String) (N : String)
    (hne : comps ≠ []) (hc : ∀ n ∈ comps, properName n = true)
    (hd : ∀ d ∈ dirs, properName d = true) (hN : properName N = true) :
    pathOf (renderPath rooted comps) dirs N = renderPath rooted (comps ++ dirs ++ [N]) := by
  simp only [pathOf]
  rw [foldl_Join_renderPath rooted dirs comps hne hc hd]
  exact Join_renderPath rooted (comps ++ dirs) (by simp [hne])
    (by
      intro m hm
      rcases List.mem_append.mp hm with h | h
      · exact hc m h
      · exact hd m h) N hN

theorem pathOf_dotSlash (comps dirs : List String) (N : String)
    (hne : comps ≠ []) (hc : ∀ n ∈ comps, properName n = true)
    (hd : ∀ d ∈ dirs, properName d = true) (hN : properName N = true) :
    pathOf ("./" ++ renderPath false comps) dirs N = renderPath false (comps ++ dirs ++ [N]) := by
  cases dirs with
  | nil =>
    simp only [pathOf, List.foldl_nil, List.append_nil]
    exact Join_dotSlash comps hne hc N hN
  | cons d ds =>
    have hd₁ : properName d = true := hd d (by simp)
    have hds : ∀ x ∈ ds, properName x = true := fun x hx => hd x (List.mem_cons_of_mem _ hx)
    simp only [pathOf, List.foldl_cons]
    rw [Join_dotSlash comps hne hc d hd₁,
      foldl_Join_renderPath false ds (comps ++ [d]) (by simp) (proper_snoc hc hd₁) hds]
    have := Join_renderPath false (comps ++ [d] ++ ds) (by simp)
      (by
        intro m hm
        rcases List.mem_append.mp hm with h | h
        · exact proper_snoc hc hd₁ m h
        · exact hds m h) N hN
    simpa using this

theorem renderPath_snoc_eq_walkedPath (rooted : Bool) (comps dirs : List String) (N : String)
    (hne : comps ≠ []) (hd : ∀ d ∈ dirs, properName d = true) :
    renderPath rooted (comps ++ dirs ++ [N])
      = walkedPath (renderPath rooted comps) (renderPath false dirs) N := by
  cases dirs with
  | nil =>
    have h0 : renderPath false [] = "" := rfl
    simp only [walkedPath, h0, if_true, List.append_nil]
    exact (renderPath_snoc rooted comps hne N).symm
  | cons d ds =>
    have hS : renderPath false (d :: ds) ≠ "" := renderPath_ne_empty false _ (by simp) hd
    simp only [walkedPath, hS, if_false]
    rw [← renderPath_snoc rooted (comps ++ d :: ds) (by simp [hne]) N,
      renderPath_append rooted comps (d :: ds) hne (by simp)]

theorem HasPrefix_dotSlash_renderPath (rooted : Bool) (comps : List String)
    (hc : ∀ n ∈ comps, properName n = true) :
    HasPrefix (renderPath rooted comps) "./" = false := by
  cases rooted with
  | true => simp [HasPrefix, renderPath, List.isPrefixOf]
  | false =>
    cases comps with
    | nil => simp [HasPrefix, renderPath, joinSlash, List.isPrefixOf]
    | cons n rest =>
      obtain ⟨h₁, h₂, h₃, _⟩ := (properName_iff n).mp (hc n (by simp))
      have hd : (renderPath false (n :: rest)).data
          = joinSlash (n.data :: rest.map String.data) := by simp [renderPath]
      have hdot : ("./" : String).data = ['.', '/'] := rfl
      simp only [HasPrefix, hd, hdot]
      cases hn : n.data with
      | nil => exact absurd hn h₁
      | cons c cs =>
        cases cs with
        | nil =>
          have hc' : c ≠ '.' := fun e => h₃ (by rw [hn, e])
          cases rest with
          | nil => simp [joinSlash, List.isPrefixOf, Ne.symm hc']
          | cons m rest' => simp [joinSlash, List.isPrefixOf, Ne.symm hc']
        | cons c₂ cs' =>
          have hc₂ : c₂ ≠ '/' := fun e => h₂ (by rw [hn, e]; simp)
          cases rest with
          | nil => simp [joinSlash, List.isPrefixOf, Ne.symm hc₂]
          | cons m rest' => simp [joinSlash, List.isPrefixOf, Ne.symm hc₂]

theorem subpath_walkedPath (R R' S N : String) (hdir : TrimPrefix R "./" = R') :
    subpath R (walkedPath R' S N) N = S := by
  simp only [subpath, hdir, walkedPath]
  by_cases hS : S = ""
  · subst hS
    simp only [if_true]
    rw [TrimSuffix_append, TrimPrefix_append]
    decide
  · simp only [hS, if_false]
    rw [TrimSuffix_append]
    have e : R' ++ "/" ++ S ++ "/" = R' ++ ("/" ++ (S ++ "/")) := by
      simp [String.append_assoc]
    rw [e, TrimPrefix_append, TrimPrefix_append, TrimSuffix_append]

theorem HasPrefix_slash_renderPath (dirs : List String)
    (hd : ∀ d ∈ dirs, properName d = true) :
    HasPrefix (renderPath false dirs) "/" = false := by
  cases dirs with
  | nil => simp [HasPrefix, renderPath, joinSlash, List.isPrefixOf]
  | cons d ds =>
    obtain ⟨c, tail, hc, hj⟩ := @joinSlash_proper_head ((d :: ds).map String.data)
      (by simp) (map_data_proper hd)
    have hsl : ("/" : String).data = ['/'] := rfl
    have hdat : (renderPath false (d :: ds)).data = c :: tail := by
      simp only [renderPath, Bool.false_eq_true, if_false, List.nil_append]
      exact hj
    simp only [HasPrefix, hdat, hsl]
    simp [List.isPrefixOf, Ne.symm hc]

theorem joinSlash_proper_last :
    ∀ xs : List (List Char), xs ≠ [] → (∀ x ∈ xs, ProperChars x) →
      ∃ init c, c ≠ '/' ∧ joinSlash xs = init ++ [c] := by
  intro xs
  induction xs with
  | nil => intro h; exact absurd rfl h
  | cons x rest ih =>
    intro _ hp
    obtain ⟨h₁, h₂, _, _⟩ := hp x (by simp)
    cases rest with
    | nil =>
      refine ⟨x.dropLast, x.getLast h₁, ?_, ?_⟩
      · intro e
        exact h₂ (e ▸ List.getLast_mem h₁)
      · simp only [joinSlash]
        exact (List.dropLast_append_getLast h₁).symm
    | cons y rest' =>
      obtain ⟨init, c, hc, hj⟩ := ih (by simp) (fun z hz => hp z (List.mem_cons_of_mem _ hz))
      refine ⟨x ++ '/' :: init, c, hc, ?_⟩
      simp only [joinSlash]
      rw [hj]
      simp

theorem joinSlash_not_suffix_slash (xs : List (List Char)) (hp : ∀ x ∈ xs, ProperChars x) :
    ¬ ['/'] <:+ joinSlash xs := by
  intro h
  by_cases hne : xs = []
  · subst hne
    have := h.length_le
    simp [joinSlash] at this
  · obtain ⟨init, c, hc, hj⟩ := joinSlash_proper_last xs hne hp
    obtain ⟨t, ht⟩ := h
    rw [hj] at ht
    have := (List.append_inj' ht rfl).2
    simp at this
    exact hc this.symm

theorem HasSuffix_slash_renderPath (dirs : List String)
    (hd : ∀ d ∈ dirs, properName d = true) :
    HasSuffix (renderPath false dirs) "/" = false := by
  have hsl : ("/" : String).data = ['/'] := rfl
  have hdat : (renderPath false dirs).data = joinSlash (dirs.map String.data) := by
    simp [renderPath]
  have := joinSlash_not_suffix_slash _ (map_data_proper hd)
  simp only [HasSuffix, hdat, hsl]
  cases h : List.isSuffixOf ['/'] (joinSlash (dirs.map String.data)) with
  | false => rfl
  | true => exact absurd (List.isSuffixOf_iff_suffix.mp h) this

/-! ## Lemmas on the loader -/

theorem ensureLang_isSome (T : Table) (lang : String) : (ensureLang T lang lang).isSome := by
  unfold ensureLang
  cases h : T lang with
  | none => simp
  | some m => simp [h]

theorem read_of_loadError_none (env : Env) (fileType lang : String)
    (content : Except String String) (pfx : String) (T : Table)
    (hT : (T lang).isSome) (h : loadError env fileType content = none) :
    ∃ T', read env fileType lang content pfx T = .done T' ∧ (T' lang).isSome := by
  unfold loadError at h
  unfold read
  cases content with
  | error e => simp at h
  | ok fileBytes =>
    simp only at h ⊢
    cases hd : decode env fileType fileBytes with
    | error e => simp [hd] at h
    | ok fileData =>
      obtain ⟨T', h₁, h₂, _⟩ := parse_done_of_some lang pfx fileData T hT
      exact ⟨T', h₁, h₂⟩

theorem read_of_loadError_some (env : Env) (fileType lang : String)
    (content : Except String String) (pfx : String) (T : Table)
    (e : String) (h : loadError env fileType content = some e) :
    read env fileType lang content pfx T = .failed e := by
  unfold loadError at h
  unfold read
  cases content with
  | error e' => simp only at h ⊢; simp at h; rw [h]
  | ok fileBytes =>
    simp only at h ⊢
    cases hd : decode env fileType fileBytes with
    | error e' => simp only [hd] at h ⊢; simp at h; rw [h]
    | ok fileData => simp [hd] at h

theorem walkFn_file (env : Env) (tdir fileType path N : String)
    (content : Except String String) (T : Table)
    (h : HasSuffix N ("." ++ fileType) = true) :
    walkFn env tdir fileType ⟨path, some ⟨N, false⟩, content⟩ T
      = read env fileType (TrimSuffix N ("." ++ fileType)) content
          (env.createKeyPrefixFromPath (subpath tdir path N))
          (ensureLang T (TrimSuffix N ("." ++ fileType))) := by
  simp [walkFn, h]

theorem walkFn_other (env : Env) (tdir fileType path N : String)
    (content : Except String String) (T : Table)
    (h : HasSuffix N ("." ++ fileType) = false) :
    walkFn env tdir fileType ⟨path, some ⟨N, false⟩, content⟩ T = .done T := by
  simp [walkFn, h]

theorem runVisits_append (fn : Visit → Table → Outcome Table) :
    ∀ (vs ws : List Visit) (T : Table),
      runVisits fn (vs ++ ws) T =
        match runVisits fn vs T with
        | .done T₁ => runVisits fn ws T₁
        | .failed e => .failed e
        | .panicked p => .panicked p := by
  intro vs
  induction vs with
  | nil => intro ws T; rfl
  | cons v vs ih =>
    intro ws T
    simp only [List.cons_append, runVisits]
    cases fn v T with
    | done T₁ => exact ih ws T₁
    | failed e => rfl
    | panicked q => rfl

/-- The walk over a directory is the callback run over its visits. -/
theorem walkDir_eq_runVisits (fn : Visit → Table → Outcome Table) :
    ∀ (d : Dir) (path : String) (T : Table),
      walkDir fn path d T = runVisits fn (visits path d) T := by
  intro d
  induction d with
  | nil => intro path T; rfl
  | file name content rest ih =>
    intro path T
    simp only [walkDir, visits, runVisits]
    cases fn ⟨Join path name, some ⟨name, false⟩, content⟩ T with
    | done T₁ => exact ih path T₁
    | failed e => rfl
    | panicked q => rfl
  | dir name listErr entries rest ihe ihr =>
    intro path T
    simp only [walkDir, visits, runVisits]
    cases fn ⟨Join path name, some ⟨name, true⟩, readDirError⟩ T with
    | failed e => rfl
    | panicked q => rfl
    | done T₁ =>
      cases listErr with
      | some err => simpa using ihr path T₁
      | none =>
        simp only [runVisits_append, ihe (Join path name) T₁]
        cases runVisits fn (visits (Join path name) entries) T₁ with
        | done T₂ => exact ihr path T₂
        | failed e => rfl
        | panicked q => rfl
  | noStat name err rest ih =>
    intro path T
    simp only [walkDir, visits, runVisits]
    cases fn ⟨Join path name, none, .error err⟩ T with
    | done T₁ => exact ih path T₁
    | failed e => rfl
    | panicked q => rfl

/-- The walk from a root directory that can be listed is the callback run over
the root and then over the visits of its entries. -/
theorem Walk_eq_runVisits (env : Env) (root name : String) (entries : Dir)
    (fn : Visit → Table → Outcome Table) (T : Table)
    (h : env.lstat root = .ok (.dir name none entries)) :
    Walk env root fn T
      = runVisits fn (⟨root, some ⟨name, true⟩, readDirError⟩ :: visits root entries) T := by
  simp only [Walk, h, runVisits]
  cases fn ⟨root, some ⟨name, true⟩, readDirError⟩ T with
  | done T₁ => exact walkDir_eq_runVisits fn entries root T₁
  | failed e => rfl
  | panicked q => rfl

/-- A file that the walk can reach is handed to the callback under the joined
path. -/
theorem visits_of_Reaches {d : Dir} {dirs : List String} {N : String}
    {c : Except String String} (h : Reaches d dirs N c) :
    ∀ path : String, (⟨pathOf path dirs N, some ⟨N, false⟩, c⟩ : Visit) ∈ visits path d := by
  induction h with
  | here N c rest =>
    intro path
    simp [visits, pathOf]
  | down name rest _ ih =>
    intro path
    simp only [visits, List.mem_cons, List.mem_append]
    right; left
    have := ih (Join path name)
    simpa [pathOf] using this
  | afterFile name c' _ ih =>
    intro path
    simp only [visits, List.mem_cons]
    right
    exact ih path
  | afterDir name listErr entries _ ih =>
    intro path
    simp only [visits, List.mem_cons, List.mem_append]
    right; right
    exact ih path
  | afterNoStat name err _ ih =>
    intro path
    simp only [visits, List.mem_cons]
    right
    exact ih path

theorem walkFn_done_of_ok (env : Env) (tdir fileType : String) (v : Visit) (T : Table)
    (hi : v.info ≠ none)
    (h : candidate fileType v = true → loadError env fileType v.content = none) :
    ∃ T', walkFn env tdir fileType v T = .done T' := by
  obtain ⟨path, info, content⟩ := v
  cases info with
  | none => exact absurd rfl hi
  | some info =>
    obtain ⟨N, isDir⟩ := info
    cases isDir with
    | true => exact ⟨T, by simp [walkFn]⟩
    | false =>
      cases hs : HasSuffix N ("." ++ fileType) with
      | false => exact ⟨T, walkFn_other env tdir fileType path N content T hs⟩
      | true =>
        rw [walkFn_file env tdir fileType path N content T hs]
        obtain ⟨T', h₁, _⟩ := read_of_loadError_none env fileType _ content _ _
          (ensureLang_isSome T _) (h (by simp [candidate, hs]))
        exact ⟨T', h₁⟩

/-- Along the visits of a walk, the first candidate file whose reading or
decoding fails ends the walk with that error. -/
theorem runVisits_first_failure (env : Env) (tdir fileType : String) (v : Visit)
    (post : List Visit) (e : String)
    (hv : candidate fileType v = true) (he : loadError env fileType v.content = some e) :
    ∀ (pre : List Visit) (T : Table),
      (∀ u ∈ pre, u.info ≠ none ∧
        (candidate fileType u = true → loadError env fileType u.content = none)) →
      runVisits (walkFn env tdir fileType) (pre ++ v :: post) T = .failed e := by
  intro pre
  induction pre with
  | nil =>
    intro T _
    obtain ⟨path, info, content⟩ := v
    cases info with
    | none => simp [candidate] at hv
    | some info =>
      obtain ⟨N, isDir⟩ := info
      simp only [candidate, Bool.and_eq_true, Bool.not_eq_true'] at hv
      have hd : isDir = false := hv.1
      subst hd
      simp only [List.nil_append, runVisits]
      rw [walkFn_file env tdir fileType path N content T hv.2,
        read_of_loadError_some env fileType _ content _ _ e he]
  | cons u us ih =>
    intro T h
    obtain ⟨T', hT'⟩ := walkFn_done_of_ok env tdir fileType u T
      (h u (List.mem_cons_self _ _)).1 (h u (List.mem_cons_self _ _)).2
    simp only [List.cons_append, runVisits, hT']
    exact ih T' (fun w hw => h w (List.mem_cons_of_mem _ hw))

/-! ## Claims on the loader -/

/-- C6 (code defect): construction is not all-or-nothing. The callback of
`walk` never looks at the error that `filepath.Walk` hands to it. With a root
that holds a good `en.json` and a directory `secret` that cannot be listed,
`New` returns a translator that knows `en`, although the candidate file
`secret/fr.json` lies under the root, was never read and does not decode. With
an entry whose `lstat` fails, the callback dereferences the nil info and `New`
panics with that, not with the error. Where the failing `fr.json` is reached,
`New` does panic with the error of decoding it. -/
theorem new_skips_unlistable_directory :
    FileAt secretDir ["secret"] "fr.json" (.ok "broken") ∧
    HasSuffix "fr.json" ("." ++ "json") = true ∧
    loadError (envOf (.dir "root" none secretDir)) "json" (.ok "broken")
      = some "unexpected end of JSON input" ∧
    (∃ t, New (envOf (.dir "root" none secretDir)) "root" "json" = .done t ∧
      lookup t.translates "en" "hello" = some "Hello" ∧
      (t.translates "fr").isNone = true) ∧
    New (envOf (.dir "root" none noStatDir)) "root" "json" = .panicked .nilDeref ∧
    New (envOf (.dir "root" none brokenDir)) "root" "json"
      = .panicked (.err "unexpected end of JSON input") := by
  refine ⟨?_, by decide, by decide, ⟨_, rfl, by decide, by decide⟩, rfl, rfl⟩
  exact FileAt.afterFile _ _ (FileAt.down _ _ _ (FileAt.here _ _ _))

/-- C7: the extension filter and the language code. A file named `N` is a
candidate exactly when `N` is some `L` followed by `.` and the format; for a
candidate the language code is that `L`, the callback goes on to `read` with
it, and a normal return leaves an inner map for `L`; a file that is not a
candidate leaves the table as it was. The comparison is case-sensitive:
`en.JSON` is no candidate for `json`, and `en.json` gives `en`. -/
theorem walkFn_extension_filter (env : Env) (tdir F path N : String)
    (content : Except String String) (T : Table) :
    (HasSuffix N ("." ++ F) = true ↔ ∃ L : String, L ++ "." ++ F = N) ∧
    (∀ L : String, L ++ "." ++ F = N →
      TrimSuffix N ("." ++ F) = L ∧
      walkFn env tdir F ⟨path, some ⟨N, false⟩, content⟩ T
        = read env F L content (env.createKeyPrefixFromPath (subpath tdir path N))
            (ensureLang T L) ∧
      ∀ T', walkFn env tdir F ⟨path, some ⟨N, false⟩, content⟩ T = .done T' →
        (T' L).isSome) ∧
    (HasSuffix N ("." ++ F) = false →
      walkFn env tdir F ⟨path, some ⟨N, false⟩, content⟩ T = .done T) ∧
    HasSuffix "en.JSON" ("." ++ "json") = false ∧
    TrimSuffix "en.json" ("." ++ "json") = "en" := by
  have hiff : HasSuffix N ("." ++ F) = true ↔ ∃ L : String, L ++ "." ++ F = N := by
    rw [HasSuffix_iff]
    constructor
    · rintro ⟨L, hL⟩; exact ⟨L, by rw [String.append_assoc]; exact hL⟩
    · rintro ⟨L, hL⟩; exact ⟨L, by rw [← String.append_assoc]; exact hL⟩
  refine ⟨hiff, ?_, ?_, by decide, by decide⟩
  · intro L hL
    have hL' : TrimSuffix N ("." ++ F) = L := by
      rw [← hL, String.append_assoc, TrimSuffix_append]
    have hw := walkFn_file env tdir F path N content T (hiff.mpr ⟨L, hL⟩)
    simp only [hL'] at hw
    refine ⟨hL', hw, ?_⟩
    intro T' hT'
    rw [hw] at hT'
    cases hl : loadError env F content with
    | none =>
      obtain ⟨T'', h₁, h₂⟩ := read_of_loadError_none env F L content
        (env.createKeyPrefixFromPath (subpath tdir path N)) _ (ensureLang_isSome T L) hl
      rw [h₁] at hT'
      cases hT'
      exact h₂
    | some e =>
      rw [read_of_loadError_some env F L content _ _ e hl] at hT'
      cases hT'
  · intro h
    exact walkFn_other env tdir F path N content T h

/-- C7 (witness): `en.json` is a candidate for `json` with language `en`, and
`en.JSON` leaves the empty table empty. -/
theorem walkFn_extension_filter_witness :
    TrimSuffix "en.json" ("." ++ "json") = "en" ∧
    walkFn (envOf (.dir "root" none plainDir)) "root" "json"
        ⟨"root/en.JSON", some ⟨"en.JSON", false⟩, .ok "hello-en"⟩ emptyTable
      = .done emptyTable :=
  ⟨((walkFn_extension_filter (envOf (.dir "root" none plainDir)) "root" "json"
      "root/en.json" "en.json" (.ok "hello-en") emptyTable).2.1 "en" (by decide)).1,
   (walkFn_extension_filter (envOf (.dir "root" none plainDir)) "root" "json"
      "root/en.JSON" "en.JSON" (.ok "hello-en") emptyTable).2.2.1 (by decide)⟩

/-- C8 (as stated, refuted): the root `root/../root` has no trailing `/` and
no leading `./`, and `en.json` lies directly in it, so the claimed seed is
empty; `filepath.Walk` hands the file over under the cleaned path
`root/en.json`, lines 76-79 compute the seed `root`, and the key `hello` of the
file is stored as `root.hello`. In the same way the root `.` with `en.json` in
the directory `.hidden` gives the path `.hidden/en.json` and the seed `hidden`
in place of `.hidden`. -/
theorem subpath_unclean_root_not_relative :
    Reaches plainDir [] "en.json" (.ok "hello-en") ∧
    pathOf "root/../root" [] "en.json" = "root/en.json" ∧
    subpath "root/../root" (pathOf "root/../root" [] "en.json") "en.json" = "root" ∧
    (∃ t, New (envOf (.dir "root" none plainDir)) "root/../root" "json" = .done t ∧
      lookup t.translates "en" "root.hello" = some "Hello" ∧
      lookup t.translates "en" "hello" = none) ∧
    Reaches hiddenDir [".hidden"] "en.json" (.ok "hello-en") ∧
    pathOf "." [".hidden"] "en.json" = ".hidden/en.json" ∧
    subpath "." (pathOf "." [".hidden"] "en.json") "en.json" = "hidden" := by
  refine ⟨Reaches.here _ _ _, by decide, by decide, ⟨_, rfl, by decide, by decide⟩,
    Reaches.down _ _ (Reaches.here _ _ _), by decide, by decide⟩

/-- C8 (amended): the seed of the key prefix. Let the root `R` be a path of
one or more proper names (names that are not empty, have no `/` and are
neither `.` nor `..`), rooted or not, or `./` followed by such a relative
path, and let `R'` be `R` without the `./`. For every chain `S` of proper
directory names below the root (possibly empty) and every proper file name
`N`, `filepath.Walk` hands the file over under the path `R'/S/N` (`R'/N` when
`S` is empty), the seed that `walk` computes for it is exactly `S`, which
neither starts nor ends with `/`, and this seed is what the callback hands to
`createKeyPrefixFromPath` for a candidate file. -/
theorem subpath_is_relative_dir (env : Env) (rooted : Bool) (comps dirs : List String)
    (R N F : String) (T : Table)
    (hne : comps ≠ []) (hc : ∀ n ∈ comps, properName n = true)
    (hd : ∀ d ∈ dirs, properName d = true) (hN : properName N = true)
    (hR : R = renderPath rooted comps ∨
      (rooted = false ∧ R = "./" ++ renderPath false comps)) :
    (∀ (d : Dir) (c : Except String String), Reaches d dirs N c →
      (⟨pathOf R dirs N, some ⟨N, false⟩, c⟩ : Visit) ∈ visits R d) ∧
    pathOf R dirs N = walkedPath (renderPath rooted comps) (renderPath false dirs) N ∧
    subpath R (pathOf R dirs N) N = renderPath false dirs ∧
    HasPrefix (subpath R (pathOf R dirs N) N) "/" = false ∧
    HasSuffix (subpath R (pathOf R dirs N) N) "/" = false ∧
    (∀ c : Except String String, HasSuffix N ("." ++ F) = true →
      walkFn env R F ⟨pathOf R dirs N, some ⟨N, false⟩, c⟩ T
        = read env F (TrimSuffix N ("." ++ F)) c
            (env.createKeyPrefixFromPath (renderPath false dirs))
            (ensureLang T (TrimSuffix N ("." ++ F)))) := by
  have hpath : pathOf R dirs N
      = walkedPath (renderPath rooted comps) (renderPath false dirs) N := by
    rw [← renderPath_snoc_eq_walkedPath rooted comps dirs N hne hd]
    rcases hR with rfl | ⟨hr, rfl⟩
    · exact pathOf_renderPath rooted comps dirs N hne hc hd hN
    · subst hr
      exact pathOf_dotSlash comps dirs N hne hc hd hN
  have hdir : TrimPrefix R "./" = renderPath rooted comps := by
    rcases hR with rfl | ⟨_, rfl⟩
    · exact TrimPrefix_of_not (HasPrefix_dotSlash_renderPath rooted comps hc)
    · subst_vars
      exact TrimPrefix_append _ _
  have hsub : subpath R (pathOf R dirs N) N = renderPath false dirs := by
    rw [hpath]
    exact subpath_walkedPath R _ _ N hdir
  refine ⟨fun d c h => visits_of_Reaches h R, hpath, hsub, ?_, ?_, ?_⟩
  · rw [hsub]; exact HasPrefix_slash_renderPath dirs hd
  · rw [hsub]; exact HasSuffix_slash_renderPath dirs hd
  · intro c hcand
    have := walkFn_file env R F (pathOf R dirs N) N c T hcand
    rw [hsub] at this
    exact this

/-- C8 (witness): root `./root`, file `en.json` in `messages/errors`: the
walked path is `root/messages/errors/en.json` and the seed is
`messages/errors`; for `en.json` directly in the root `root` it is empty. -/
theorem subpath_is_relative_dir_witness :
    pathOf "./root" ["messages", "errors"] "en.json" = "root/messages/errors/en.json" ∧
    subpath "./root" (pathOf "./root" ["messages", "errors"] "en.json") "en.json"
      = "messages/errors" ∧
    subpath "root" (pathOf "root" [] "en.json") "en.json" = "" :=
  ⟨((subpath_is_relative_dir (envOf (.dir "root" none plainDir)) false ["root"]
      ["messages", "errors"] "./root" "en.json" "json" emptyTable
      (by decide) (by decide) (by decide) (by decide)
      (Or.inr ⟨rfl, by decide⟩)).2.1).trans (by decide),
   ((subpath_is_relative_dir (envOf (.dir "root" none plainDir)) false ["root"]
      ["messages", "errors"] "./root" "en.json" "json" emptyTable
      (by decide) (by decide) (by decide) (by decide)
      (Or.inr ⟨rfl, by decide⟩)).2.2.1).trans (by decide),
   ((subpath_is_relative_dir (envOf (.dir "root" none plainDir)) false ["root"]
      [] "root" "en.json" "json" emptyTable
      (by decide) (by decide) (by decide) (by decide)
      (Or.inl (by decide))).2.2.1).trans (by decide)⟩

end Translator
